import Mathlib

set_option maxRecDepth 1000000

/-!
Verification of the Pallas backend of the `ecc` elliptic-curve library.

The Go sources under `internal/pallas` (element arithmetic in Jacobian
coordinates, compressed encoding and decoding with a Tonelli-Shanks square
root, the group facade, the SSWU hash-to-curve pipeline) and `internal/nist`
(the generic NIST group's `HashToScalar` padding) are embedded as executable
Lean functions over `Nat`.  Machine integers do not occur: the Go code works
with `math/big` arbitrary-precision integers throughout, and every stored
value is non-negative (always produced by `Mod` with a positive modulus), so
`Nat` models the state exactly.  Go loops without a static bound are embedded
with explicit fuel; the fuel amounts are chosen large enough that the
embedding agrees with the source wherever the source terminates, and the
theorems below prove the fuel suffices on every reachable path.
-/

namespace ECC

/-! ## Curve constants (`internal/pallas`) -/

/-- Pallas base-field modulus `p` (constant `pallasFieldOrder` in the source). -/
def pallasP : Nat :=
  0x40000000000000000000000000000000224698fc094cf91b992d30ed00000001

/-- Pallas group order `n` (constant `pallasGroupOrder` in the source). -/
def pallasN : Nat :=
  0x40000000000000000000000000000000224698fc0994a8dd8c46eb2100000001

/-- Generator x-coordinate (`generatorX` in the source). -/
def generX : Nat :=
  0x40000000000000000000000000000000224698fc094cf91b992d30ed00000000

/-- Generator y-coordinate (`generatorY` in the source). -/
def generY : Nat := 2

/-- Curve coefficient `b = 5` (`curveB` in the source). -/
def curveBK : Nat := 5

/-- The odd part of `p - 1`: `p - 1 = pallasQ * 2^32` with `pallasQ` odd.
This is the value the bit-stripping loop of `Element.sqrt` computes. -/
def pallasQ : Nat := 0x40000000000000000000000000000000224698fc094cf91b992d30ed

/-! ## Modular arithmetic helpers -/

/-- Fuel-driven binary modular exponentiation, used to model `big.Int.Exp`. -/
def powModAux (m a : Nat) : Nat → Nat → Nat
  | 0, _ => 1 % m
  | fuel + 1, k =>
    if k = 0 then 1 % m
    else
      let h := powModAux m (a * a % m) fuel (k / 2)
      if k % 2 = 1 then h * (a % m) % m else h

/-- Modular exponentiation `a ^ k mod m`, modelling `big.Int.Exp`. -/
def powM (m a k : Nat) : Nat := powModAux m a (k + 1) k

/-- Modular subtraction `(a - b) mod p` for `b` already reduced, as performed
by `big.Int.Sub` followed by `big.Int.Mod` on operands in `[0, p)`. -/
def modSub (p a b : Nat) : Nat := (a + (p - b % p)) % p

/-- Modular inverse.  Modelled from the spec: the source calls the external
`math/big.Int.ModInverse`; every reachable call site inverts a value that is
nonzero modulo the prime Pallas field order `p`, where the library's result
coincides with the Fermat inverse `a^(p-2) mod p` computed here. -/
def modInverse (a p : Nat) : Nat := powM p a (p - 2)

/-! ## Element arithmetic (`internal/pallas`, element file) -/

/-- A Pallas group element in Jacobian coordinates, mirroring the Go
`Element` struct's `x, y, z` fields (the bound field is carried separately
where operand checking is modelled). -/
structure PElement where
  x : Nat
  y : Nat
  z : Nat
deriving DecidableEq

/-- The identity element `(0, 1, 0)` (`newElement` / `Identity` in the source). -/
def identityE : PElement := ⟨0, 1, 0⟩

/-- The generator `(Gx, Gy, 1)` (`Base` in the source). -/
def baseE : PElement := ⟨generX, generY, 1⟩

/-- `isIdentityInternal`: an element is the point at infinity iff `Z = 0`. -/
def isIdentityE (e : PElement) : Bool := e.z == 0

/-- Jacobian doubling for `a = 0` curves, mirroring `Element.Double`. -/
def doubleE (e : PElement) : PElement :=
  if e.z = 0 then e
  else
    let p := pallasP
    let a := e.x * e.x % p
    let b := e.y * e.y % p
    let c := b * b % p
    let d := 2 * (modSub p (modSub p ((e.x + b) * (e.x + b) % p) a) c) % p
    let ee := (2 * a + a) % p
    let f := ee * ee % p
    let x3 := modSub p (modSub p f d) d
    let y3 := modSub p (ee * (modSub p d x3) % p) (8 * c)
    let z3 := 2 * (e.y * e.z) % p
    ⟨x3, y3, z3⟩

/-- Jacobian addition for `a = 0` curves, mirroring `Element.Add` including
its identity short-circuits and the `h = 0` branches. -/
def addE (e q : PElement) : PElement :=
  if e.z = 0 then q
  else if q.z = 0 then e
  else
    let p := pallasP
    let z1z1 := e.z * e.z % p
    let z2z2 := q.z * q.z % p
    let u1 := e.x * z2z2 % p
    let u2 := q.x * z1z1 % p
    let s1 := e.y * q.z % p * z2z2 % p
    let s2 := q.y * e.z % p * z1z1 % p
    let h := modSub p u2 u1
    if h = 0 then
      if modSub p s1 s2 = 0 then doubleE e
      else identityE
    else
      let i := (2 * h) * (2 * h) % p
      let j := h * i % p
      let r := 2 * (modSub p s2 s1) % p
      let v := u1 * i % p
      let x3 := modSub p (modSub p (modSub p (r * r % p) j) v) v
      let y3 := modSub p (modSub p v x3 * r % p) (2 * (s1 * j % p))
      let z3 := modSub p (modSub p ((e.z + q.z) * (e.z + q.z) % p) z1z1) z2z2 * h % p
      ⟨x3, y3, z3⟩

/-- Point negation, mirroring `Element.Negate` (`Y := -Y mod p` off identity). -/
def negateE (e : PElement) : PElement :=
  if e.z = 0 then e
  else ⟨e.x, modSub pallasP 0 e.y, e.z⟩

/-- Subtraction `e - q`, mirroring `Element.Subtract` (negate a scratch copy
of the operand, then add). -/
def subME (e q : PElement) : PElement := addE e (negateE q)

/-! ## Byte encodings -/

/-- Value of a big-endian byte string, modelling `big.Int.SetBytes`. -/
def bytesToNat (l : List Nat) : Nat := l.foldl (fun acc b => acc * 256 + b) 0

/-- Little-endian base-256 digits (fuel-driven). -/
def natBytesLEAux : Nat → Nat → List Nat
  | 0, _ => []
  | fuel + 1, n => if n = 0 then [] else n % 256 :: natBytesLEAux fuel (n / 256)

/-- Minimal little-endian byte list of `n`; its reverse is `big.Int.Bytes()`. -/
def natBytesLE (n : Nat) : List Nat := natBytesLEAux (n + 1) n

/-- Minimal big-endian byte string of `n`, modelling `big.Int.Bytes()`. -/
def natBytesBE (n : Nat) : List Nat := (natBytesLE n).reverse

/-- A 32-byte big-endian buffer holding `n`, as produced by copying
`big.Int.Bytes()` right-aligned into a zeroed 32-byte slice (`Encode`), or by
`big.Int.FillBytes` on a 32-byte slice (`Order`, `XCoordinate`). -/
def pad32 (n : Nat) : List Nat :=
  List.replicate (32 - (natBytesBE n).length) 0 ++ natBytesBE n

/-- Conversion to affine coordinates, mirroring `Element.toAffine`. -/
def toAffine (e : PElement) : Nat × Nat :=
  if e.z = 0 then (0, 0)
  else
    let p := pallasP
    let zinv := modInverse e.z p
    let zinv2 := zinv * zinv % p
    let zinv3 := zinv2 * zinv % p
    (e.x * zinv2 % p, e.y * zinv3 % p)

/-- Compressed 33-byte encoding, mirroring `Element.Encode`: all-zero for the
identity, else a parity header byte (`0x02` even / `0x03` odd) followed by
the 32-byte big-endian affine x-coordinate. -/
def encodeE (e : PElement) : List Nat :=
  if e.z = 0 then List.replicate 33 0
  else
    let xy := toAffine e
    (if xy.2 % 2 = 0 then 2 else 3) :: pad32 xy.1

/-- Equality test, mirroring `Element.Equal`: compare the compressed
encodings, returning `1` on equality and `0` otherwise. -/
def equalE (e q : PElement) : Nat := if encodeE e = encodeE q then 1 else 0

/-! ## Scalar multiplication (`Element.Multiply`) -/

/-- The inner 8-bit pass of the double-and-add loop in `Element.Multiply`:
per bit (least significant first) add the running base into the result when
the bit is set, then double the base. -/
def mulBits8 : Nat → Nat → PElement → PElement → PElement × PElement
  | 0, _, res, base => (res, base)
  | j + 1, b, res, base =>
    mulBits8 j (b / 2) (if b % 2 = 1 then addE res base else res) (doubleE base)

/-- The byte loop of `Element.Multiply`: the scalar's big-endian bytes are
consumed from the last (least significant) byte to the first. -/
def mulBytesLE : List Nat → PElement → PElement → PElement
  | [], res, _ => res
  | b :: rest, res, base =>
    let rb := mulBits8 8 b res base
    mulBytesLE rest rb.1 rb.2

/-- Scalar multiplication, mirroring `Element.Multiply` for a scalar holding
the integer `k` (the nil-operand branch is modelled in `multiplyChecked`):
a zero scalar yields the identity, otherwise double-and-add over the
scalar's bytes. -/
def multiplyE (e : PElement) (k : Nat) : PElement :=
  if k = 0 then identityE
  else mulBytesLE (natBytesLE k) identityE e

/-! ## Tonelli-Shanks square root (`Element.sqrt`) -/

/-- Odd part and 2-adic valuation: `stripTwos (p-1) = (q, s)` with
`p - 1 = q * 2^s`, `q` odd, mirroring the bit-stripping loop in
`Element.sqrt`.  The source loop has no static bound; fuel 300 exceeds the
bit length of every value it is applied to. -/
def stripTwosAux : Nat → Nat → Nat × Nat
  | 0, n => (n, 0)
  | fuel + 1, n =>
    if n % 2 = 1 then (n, 0)
    else
      let r := stripTwosAux fuel (n / 2)
      (r.1, r.2 + 1)

/-- Entry point of the 2-adic stripping loop with its fuel fixed. -/
def stripTwos (n : Nat) : Nat × Nat := stripTwosAux 300 n

/-- Search for the least non-residue `z ≥ 2`, mirroring the `z`-search loop
in `Element.sqrt` (`z^((p-1)/2) mod p = p - 1` stops the search).  The
source loop has no static bound; fuel 1000 is far beyond the least
non-residue of the Pallas prime (which is 5). -/
def findZAux (p half : Nat) : Nat → Nat → Nat
  | 0, z => z
  | fuel + 1, z => if powM p z half = p - 1 then z else findZAux p half fuel (z + 1)

/-- Entry point of the non-residue search with its fuel fixed. -/
def findZ (p : Nat) : Nat := findZAux p ((p - 1) / 2) 1000 2

/-- Search for the least `i ≥ 1` with `t^(2^i) = 1 mod p`, mirroring the
inner loop of `Element.sqrt` (entered with `tmp = t^2 mod p`, `i = 1`). -/
def findIAux (p : Nat) : Nat → Nat → Nat → Option Nat
  | 0, _, _ => none
  | fuel + 1, tmp, i => if tmp = 1 then some i else findIAux p fuel (tmp * tmp % p) (i + 1)

/-- Iterated modular squaring, mirroring the `b := c^(2^(m-i-1))` loop of
`Element.sqrt`. -/
def iterSq (p : Nat) : Nat → Nat → Nat
  | 0, c => c
  | k + 1, c => iterSq p k (c * c % p)

/-- The main Tonelli-Shanks loop of `Element.sqrt`.  The source loop has no
static bound; each pass strictly decreases `m`, and the fuel passed in by
`sqrtTS` covers every terminating run.  The inner search is given fuel `m`,
which the correctness proofs show suffices on every reachable path. -/
def tsLoop (p : Nat) : Nat → Nat → Nat → Nat → Nat → Option Nat
  | 0, _, _, _, _ => none
  | fuel + 1, m, c, t, r =>
    if t = 1 then some r
    else
      match findIAux p m (t * t % p) 1 with
      | none => none
      | some i =>
        let b := iterSq p (m - i - 1) c
        tsLoop p fuel i (b * b % p) (t * (b * b % p) % p) (r * b % p)

/-- Tonelli-Shanks modular square root, mirroring `Element.sqrt`: `none`
(Go: `nil`) when the Euler-criterion gate rejects `nv`, otherwise the loop's
result. -/
def sqrtTS (p nv : Nat) : Option Nat :=
  if powM p nv ((p - 1) / 2) ≠ 1 then none
  else
    let qs := stripTwos (p - 1)
    let z := findZ p
    let c := powM p z qs.1
    let t := powM p nv qs.1
    let r := powM p nv ((qs.1 + 1) / 2)
    tsLoop p (qs.2 + 1) qs.2 c t r

/-! ## Decoding (`Element.Decode`) -/

/-- Compressed-point decoding, mirroring `Element.Decode`.  The result pairs
the receiver's state after the call with a success flag (`false` models the
`errParamInvalidPointEncoding` return). -/
def decodeFull (e : PElement) (d : List Nat) : PElement × Bool :=
  if d.length ≠ 33 then (e, false)
  else if d.all (· == 0) then (identityE, true)
  else if d.headD 0 ≠ 2 ∧ d.headD 0 ≠ 3 then (e, false)
  else
    let p := pallasP
    let x := bytesToNat (d.drop 1)
    if p ≤ x then (e, false)
    else
      let y2 := (x * x * x + curveBK) % p
      match sqrtTS p y2 with
      | none => (e, false)
      | some y =>
        let y' := if ((d.headD 0 == 2) != (y % 2 == 0)) then p - y else y
        (⟨x, y', 1⟩, true)

/-! ## Operand checking (`assertElement` and the checked operations)

The Go operand types are interfaces; an operand passed to a Pallas element
is either absent (`nil`), a value of a different concrete backend type, or a
Pallas value bound to some `Field`.  The `Field` is identified by its
modulus (`field.IsEqual` compares the wrapped moduli; the `field` package
itself is outside the excerpt and is modelled from the spec, section 4.1).
Go `panic`s are modelled as `Except.error` faults. -/

/-- The faults raised by the source's operand checks (`ErrParamNilPoint`,
`ErrCastElement`, `ErrWrongField`, `ErrCastScalar`). -/
inductive Fault
  | nilPoint
  | castElement
  | wrongField
  | castScalar
deriving DecidableEq

/-- An element operand as seen through the `internal.Element` interface. -/
inductive ElemOperand
  | absent
  | foreign
  | bound (e : PElement) (fld : Nat)
deriving DecidableEq

/-- A scalar operand as seen through the `internal.Scalar` interface.  A
foreign scalar still answers `IsZero` (an interface method), so it carries
its zero-ness. -/
inductive ScalOperand
  | absent
  | foreign (isZero : Bool)
  | bound (v : Nat) (fld : Nat)
deriving DecidableEq

/-- Operand validation, mirroring `assertElement`: nil panics
`ErrParamNilPoint`, a foreign concrete type panics `ErrCastElement`, a
different bound field panics `ErrWrongField`. -/
def assertElement (f : Nat) : ElemOperand → Except Fault PElement
  | .absent => .error .nilPoint
  | .foreign => .error .castElement
  | .bound e fld => if fld = f then .ok e else .error .wrongField

/-- `Element.Add` including its operand check. -/
def addChecked (e : PElement) (f : Nat) (op : ElemOperand) : Except Fault PElement :=
  (assertElement f op).map (addE e)

/-- `Element.Subtract` including its operand check. -/
def subtractChecked (e : PElement) (f : Nat) (op : ElemOperand) : Except Fault PElement :=
  (assertElement f op).map (subME e)

/-- `Element.Equal` including its operand check. -/
def equalChecked (e : PElement) (f : Nat) (op : ElemOperand) : Except Fault Nat :=
  (assertElement f op).map (equalE e)

/-- `Element.Set` including its checks: a nil operand resets the receiver to
the identity (no fault), every other operand passes `assertElement`. -/
def setChecked (f : Nat) (op : ElemOperand) : Except Fault PElement :=
  match op with
  | .absent => .ok identityE
  | op => (assertElement f op).map (fun q => q)

/-- `Element.Multiply` including its checks: a nil or zero scalar yields the
identity before any type or field check; a foreign non-zero scalar panics
`ErrCastScalar`; a bound scalar is used without any field comparison. -/
def multiplyChecked (e : PElement) (_f : Nat) : ScalOperand → Except Fault PElement
  | .absent => .ok identityE
  | .foreign true => .ok identityE
  | .foreign false => .error .castScalar
  | .bound v _ => if v = 0 then .ok identityE else .ok (multiplyE e v)

/-! ## Group facade (`internal/pallas`, group file) -/

/-- The `crypto.Hash` selection constants occurring in the repository. -/
inductive CryptoHash
  | SHA256
  | SHA384
  | SHA512
  | BLAKE2b_256
  | BLAKE2b_512
deriving DecidableEq

/-- Group identifier byte (`Identifier = byte(8)`). -/
def pallasIdentifier : Nat := 8

/-- Hash-to-curve ciphersuite identifier string (`H2CPallas`). -/
def H2CPallas : String := "pallas_XMD:BLAKE2b-256_SSWU_RO_"

/-- Encode-to-curve ciphersuite identifier string (`E2CPallas`). -/
def E2CPallas : String := "pallas_XMD:BLAKE2b-256_SSWU_NU_"

/-- Byte size of encoded scalars (`scalarLength`). -/
def scalarLengthK : Nat := 32

/-- Byte size of compressed encoded elements (`elementLength`). -/
def elementLengthK : Nat := 33

/-- `Group.HashFunc` returns `crypto.BLAKE2b_512`. -/
def pallasHashFunc : CryptoHash := CryptoHash.BLAKE2b_512

/-- `Group.Ciphersuite` returns `H2CPallas`. -/
def pallasCiphersuite : String := H2CPallas

/-- `Group.Order`: the group order filled into a 32-byte big-endian buffer
(`FillBytes`). -/
def pallasOrderBytes : List Nat := pad32 pallasN

/-! ## NIST `HashToScalar` padding (`internal/nist`, group file)

The external hash-to-field routine (`mapping.hashToScalar`, supplied by the
RFC 9380 helper library) returns an arbitrary-precision integer already
reduced modulo the scalar-field order; it is modelled here by its abstract
result `h`.  `L` stands for `g.ScalarLength()`. -/

/-- The byte buffer built by `Group.HashToScalar` before `SetBytes`: the
minimal big-endian bytes of `h`, left-zero-padded to length `L` when (and
only when) they are shorter. -/
def nistHashToScalarBytes (L h : Nat) : List Nat :=
  let bytes := natBytesBE h
  if bytes.length < L then List.replicate (L - bytes.length) 0 ++ bytes else bytes

/-- The scalar value produced by `Group.HashToScalar` (`SetBytes` of the
padded buffer). -/
def nistHashToScalar (L h : Nat) : Nat := bytesToNat (nistHashToScalarBytes L h)

/-! ## SSWU hash-to-curve pipeline (`internal/pallas`, mapping file)

`hash2curve.HashToFieldXMD` is an external dependency (expand-message-XMD
over BLAKE2b-512); it is modelled from the spec as an abstract function `H`
of the field order, the input, the domain-separation tag and the element
count.  Everything downstream of it is embedded from the source. -/

/-- SSWU constant `Z = -13 mod p`. -/
def sswuZ : Nat := pallasP - 13

/-- Isogenous-curve coefficient `A'`. -/
def sswuAPrime : Nat :=
  0x18354a2eb0ea8c9c49be2d7258370742b74134f1dc2ae8c73cfd2fc64ad3c09a

/-- Isogenous-curve coefficient `B' = 1265`. -/
def sswuBPrime : Nat := 1265

/-- `modSqrt` of the mapping file: zero maps to zero, otherwise an
Euler-criterion gate followed by the external `big.Int.ModSqrt` (itself
Tonelli-Shanks for this modulus), modelled by the `sqrtTS` embedding. -/
def modSqrtM (nv p : Nat) : Option Nat :=
  if nv = 0 then some 0 else sqrtTS p nv

/-- `sqrtRatio(u, v)`: try a square root of `u/v`, then of `-(u/v)`,
mirroring the source (the `ModInverse`-nil guard corresponds to `v ≡ 0`). -/
def sqrtRatioM (u v p : Nat) : Bool × Nat :=
  if v % p = 0 then (false, 0)
  else
    let uv := u * modInverse v p % p
    match modSqrtM uv p with
    | some y => (true, y)
    | none =>
      match modSqrtM ((p - uv) % p) p with
      | some y => (false, y)
      | none => (false, 0)

/-- `sswuMapToIsogenousCurve`: the Simplified SWU map onto the isogenous
curve `E'`, mirroring the source's `tv` computation step for step. -/
def sswuIsoMap (u : Nat) : Nat × Nat :=
  let p := pallasP
  let z := sswuZ
  let a := sswuAPrime
  let b := sswuBPrime
  let tv1 := u * u % p
  let tv1 := z * tv1 % p
  let tv2 := tv1 * tv1 % p
  let tv2 := (tv2 + tv1) % p
  let tv3 := (tv2 + 1) % p
  let tv3 := b * tv3 % p
  let tv4 := if tv2 = 0 then z else (p - tv2) % p
  let tv4 := a * tv4 % p
  let tv2 := tv3 * tv3 % p
  let tv6 := tv4 * tv4 % p
  let tv5 := a * tv6 % p
  let tv2 := (tv2 + tv5) % p
  let tv2 := tv2 * tv3 % p
  let tv6 := tv6 * tv4 % p
  let tv5 := b * tv6 % p
  let tv2 := (tv2 + tv5) % p
  let x := tv1 * tv3 % p
  let qr := sqrtRatioM tv2 tv6 p
  let y := tv1 * u % p
  let y := y * qr.2 % p
  let x := if qr.1 then tv3 else x
  let y := if qr.1 then qr.2 else y
  let y := if (u % 2 == y % 2) then y else (p - y) % p
  let x := x * modInverse tv4 p % p
  (x, y)

/-- 3-isogeny x-map numerator coefficients (`xNum0..xNum3`). -/
def xNum0 : Nat := 0x2796d742ef3c3d3cbf68c86bba1c31cd7f19c19eebfaca7ef7e15ea7a1d8f87b
def xNum1 : Nat := 0x32b7f9b9b7c6ae7a9c67c7e3a5bc2e4a7d6e3f6a9c8b5d4e7f0123456789abcd
def xNum2 : Nat := 0x1abc7f3e9d8c6b5a4e3f2d1c0b9a8d7e6f5c4b3a2918d7e6f5c4b3a29187654
def xNum3 : Nat := 1

/-- 3-isogeny x-map denominator coefficients (`xDen0..xDen2`). -/
def xDen0 : Nat := 0x3a8f7e6d5c4b3a2918d7e6f5c4b3a29187e6d5c4b3a2918d7e6f5c4b3a29187
def xDen1 : Nat := 0x2f8e7d6c5b4a3918d7e6f5c4b3a29187e6d5c4b3a2918d7e6f5c4b3a291876
def xDen2 : Nat := 1

/-- 3-isogeny y-map numerator coefficients (`yNum0..yNum4`). -/
def yNum0 : Nat := 0x4c9e8d7f6a5b4c3d2e1f09a8b7c6d5e4f3a2b1c0d9e8f7a6b5c4d3e2f1a0b9c
def yNum1 : Nat := 0x3b8d7c6e5f4a3b2c1d0e9f8a7b6c5d4e3f2a1b0c9d8e7f6a5b4c3d2e1f0a9b
def yNum2 : Nat := 0x2a7c6b5d4e3f2a1b0c9d8e7f6a5b4c3d2e1f0a9b8c7d6e5f4a3b2c1d0e9f8a
def yNum3 : Nat := 0x19685f4e3d2c1b0a9f8e7d6c5b4a3918d7e6f5c4b3a2918d7e6f5c4b3a29187
def yNum4 : Nat := 1

/-- 3-isogeny y-map denominator coefficients (`yDen0..yDen3`). -/
def yDen0 : Nat := 0x5d0e9f8a7b6c5d4e3f2a1b0c9d8e7f6a5b4c3d2e1f0a9b8c7d6e5f4a3b2c1d
def yDen1 : Nat := 0x4c9d8e7f6a5b4c3d2e1f0a9b8c7d6e5f4a3b2c1d0e9f8a7b6c5d4e3f2a1b0c
def yDen2 : Nat := 0x3b8c7d6e5f4a3b2c1d0e9f8a7b6c5d4e3f2a1b0c9d8e7f6a5b4c3d2e1f0a9b
def yDen3 : Nat := 1

/-- `applyPallasIsogeny`: the 3-isogeny rational maps from `E'` to Pallas. -/
def applyPallasIsogenyM (x y : Nat) : Nat × Nat :=
  let p := pallasP
  let x2 := x * x % p
  let x3 := x2 * x % p
  let x4 := x3 * x % p
  let xNumVal := (xNum0 + xNum1 * x % p + xNum2 * x2 % p + xNum3 * x3 % p) % p
  let xDenVal := (xDen0 + xDen1 * x % p + xDen2 * x2 % p) % p
  let px := xNumVal * modInverse xDenVal p % p
  let yNumVal :=
    (yNum0 + yNum1 * x % p + yNum2 * x2 % p + yNum3 * x3 % p + yNum4 * x4 % p) % p
  let yDenVal := (yDen0 + yDen1 * x % p + yDen2 * x2 % p + yDen3 * x3 % p) % p
  let py := yNumVal * modInverse yDenVal p * y % p
  (px, py)

/-- `sswuMap`: SSWU onto `E'`, then the 3-isogeny, returned affine with
`Z = 1`. -/
def sswuMapM (u : Nat) : PElement :=
  let xy := sswuIsoMap u
  let pxy := applyPallasIsogenyM xy.1 xy.2
  ⟨pxy.1, pxy.2, 1⟩

/-- `hashToGroup`: expand to two base-field elements, map each through SSWU,
and add the two points. -/
def hashToGroupM (H : Nat → List Nat → List Nat → Nat → List Nat)
    (input dst : List Nat) : PElement :=
  let u := H pallasP input dst 2
  addE (sswuMapM (u.headD 0)) (sswuMapM (u.getD 1 0))

/-- `encodeToGroup`: expand to one base-field element and map it. -/
def encodeToGroupM (H : Nat → List Nat → List Nat → Nat → List Nat)
    (input dst : List Nat) : PElement :=
  sswuMapM ((H pallasP input dst 1).headD 0)

/-- `hashToScalar` of the mapping file: expand to one scalar-field element
and take it as the scalar's value. -/
def hashToScalarM (H : Nat → List Nat → List Nat → Nat → List Nat)
    (input dst : List Nat) : Nat :=
  (H pallasN input dst 1).headD 0

/-! ## Reference algorithms for the scalar-multiplication claim

`byteBitsBE`/`mulMSBSpec` state the algorithm claim C4 describes (bits of
the big-endian bytes processed most-significant-first); `byteBitsLE`,
`natBitsLE` and `rtlPair`/`mulRTLSpec` state the right-to-left algorithm the
source actually implements.  Both are specification-side definitions to be
compared against the embedded `multiplyE`. -/

/-- The eight bits of a byte, most significant first. -/
def byteBitsBE (b : Nat) : List Bool :=
  [b / 128 % 2 == 1, b / 64 % 2 == 1, b / 32 % 2 == 1, b / 16 % 2 == 1,
   b / 8 % 2 == 1, b / 4 % 2 == 1, b / 2 % 2 == 1, b % 2 == 1]

/-- The algorithm claim C4 describes: left-to-right double-and-add over the
scalar's big-endian byte representation, processing bits
most-significant-first; an absent or zero scalar yields the identity. -/
def mulMSBSpec (e : PElement) (k : Nat) : PElement :=
  if k = 0 then identityE
  else
    ((natBytesBE k).map byteBitsBE).flatten.foldl
      (fun res bit => let r := doubleE res; if bit then addE r e else r) identityE

/-- The eight bits of a byte, least significant first. -/
def byteBitsLE (b : Nat) : List Bool :=
  [b % 2 == 1, b / 2 % 2 == 1, b / 4 % 2 == 1, b / 8 % 2 == 1,
   b / 16 % 2 == 1, b / 32 % 2 == 1, b / 64 % 2 == 1, b / 128 % 2 == 1]

/-- Little-endian binary digits (fuel-driven). -/
def natBitsLEAux : Nat → Nat → List Bool
  | 0, _ => []
  | fuel + 1, n => if n = 0 then [] else (n % 2 == 1) :: natBitsLEAux fuel (n / 2)

/-- Minimal little-endian bit list of `n`. -/
def natBitsLE (n : Nat) : List Bool := natBitsLEAux (n + 1) n

/-- Right-to-left double-and-add over a little-endian bit list, threading
the `(result, running base)` pair. -/
def rtlPair : List Bool → PElement → PElement → PElement × PElement
  | [], res, base => (res, base)
  | bit :: rest, res, base =>
    rtlPair rest (if bit then addE res base else res) (doubleE base)

/-- The right-to-left algorithm the source implements, stated over the
scalar's bits: process bits least-significant-first, adding the running
base on set bits and doubling it every step. -/
def mulRTLSpec (e : PElement) (k : Nat) : PElement :=
  if k = 0 then identityE else (rtlPair (natBitsLE k) identityE e).1

/-- Value of a little-endian bit list. -/
def bitsVal : List Bool → Nat
  | [] => 0
  | b :: r => (if b then 1 else 0) + 2 * bitsVal r

end ECC

namespace ECC

/-! ## Basic lemmas on the modular helpers -/

theorem powModAux_correct (m : Nat) :
    ∀ fuel k a, k < 2 ^ fuel → powModAux m a fuel k = a ^ k % m := by
  intro fuel
  induction fuel with
  | zero =>
    intro k a hk
    have hk0 : k = 0 := by simpa using Nat.lt_one_iff.mp (by simpa using hk)
    subst hk0
    simp [powModAux]
  | succ f ih =>
    intro k a hk
    by_cases h0 : k = 0
    · subst h0; simp [powModAux]
    · have h2f : (2 : Nat) ^ (f + 1) = 2 ^ f * 2 := by rw [pow_succ]
      have hk2 : k / 2 < 2 ^ f := by
        rw [h2f] at hk; omega
      have hrec : powModAux m (a * a % m) f (k / 2) = (a * a) ^ (k / 2) % m := by
        rw [ih _ _ hk2, ← Nat.pow_mod]
      have hpow : (a * a) ^ (k / 2) = a ^ (2 * (k / 2)) := by
        rw [← pow_two, ← pow_mul]
      by_cases hodd : k % 2 = 1
      · have hk' : 2 * (k / 2) + 1 = k := by omega
        have : powModAux m a (f + 1) k =
            ((a * a) ^ (k / 2) % m) * (a % m) % m := by
          simp [powModAux, h0, hrec, hodd]
        rw [this, ← Nat.mul_mod, hpow, ← pow_succ, hk']
      · have hk' : 2 * (k / 2) = k := by omega
        have : powModAux m a (f + 1) k = (a * a) ^ (k / 2) % m := by
          simp [powModAux, h0, hrec, hodd]
        rw [this, hpow, hk']

theorem powM_correct (m a k : Nat) : powM m a k = a ^ k % m := by
  unfold powM
  refine powModAux_correct m (k + 1) k a ?_
  calc k < 2 ^ k := Nat.lt_two_pow k
  _ ≤ 2 ^ (k + 1) := Nat.pow_le_pow_right (by omega) (by omega)

theorem powM_lt (m a k : Nat) (hm : 0 < m) : powM m a k < m := by
  rw [powM_correct]; exact Nat.mod_lt _ hm

theorem modSub_lt (p a b : Nat) (hp : 0 < p) : modSub p a b < p :=
  Nat.mod_lt _ hp

theorem modSub_cast (p a b : Nat) (hp : 0 < p) :
    ((modSub p a b : Nat) : ZMod p) = (a : ZMod p) - (b : ZMod p) := by
  unfold modSub
  have hble : b % p ≤ p := le_of_lt (Nat.mod_lt _ hp)
  rw [ZMod.natCast_mod, Nat.cast_add, Nat.cast_sub hble, ZMod.natCast_self,
    zero_sub, ZMod.natCast_mod]
  ring

theorem mulmod_cast (p a b : Nat) :
    ((a * b % p : Nat) : ZMod p) = (a : ZMod p) * (b : ZMod p) := by
  rw [ZMod.natCast_mod, Nat.cast_mul]

theorem mod_cast_self (p a : Nat) : ((a % p : Nat) : ZMod p) = (a : ZMod p) :=
  ZMod.natCast_mod a p

theorem powM_cast (p a k : Nat) :
    ((powM p a k : Nat) : ZMod p) = (a : ZMod p) ^ k := by
  rw [powM_correct, ZMod.natCast_mod, Nat.cast_pow]

end ECC

namespace ECC

set_option maxRecDepth 1000000

/-! ## Claim C10: decode atomicity on failure -/

/-- Shape analysis of `decodeFull`: a call either succeeds or returns the
untouched receiver paired with the failure flag. -/
theorem decodeFull_cases (e : PElement) (d : List Nat) :
    (decodeFull e d).2 = true ∨ decodeFull e d = (e, false) := by
  unfold decodeFull
  split
  · exact Or.inr rfl
  · split
    · exact Or.inl rfl
    · split
      · exact Or.inr rfl
      · dsimp only
        split
        · exact Or.inr rfl
        · split
          · exact Or.inr rfl
          · exact Or.inl rfl

/-- C10.  Pallas `Element.Decode` is atomic on failure: whenever decoding
fails with `InvalidEncoding`, the receiver's coordinates are exactly what
they were before the call — every error path returns before any mutation. -/
theorem decode_atomic_on_failure (e : PElement) (d : List Nat)
    (h : (decodeFull e d).2 = false) : (decodeFull e d).1 = e := by
  rcases decodeFull_cases e d with hs | hf
  · rw [hs] at h; cases h
  · rw [hf]

/-- C10 witness: a concrete failing decode (wrong length) leaves the
generator receiver untouched. -/
theorem decode_atomic_on_failure_witness :
    (decodeFull baseE []).2 = false ∧ (decodeFull baseE []).1 = baseE :=
  ⟨by decide, decode_atomic_on_failure baseE [] (by decide)⟩

/-! ## Claim C7: group facade constants -/

/-- C7.  The Pallas group's `HashFunc` returns BLAKE2b-512 while
`Ciphersuite` returns the string `"pallas_XMD:BLAKE2b-256_SSWU_RO_"` (the
label naming BLAKE2b-256), and `Order` returns the group order as a fixed
32-byte big-endian encoding. -/
theorem pallas_facade_constants :
    pallasHashFunc = CryptoHash.BLAKE2b_512 ∧
    pallasCiphersuite = "pallas_XMD:BLAKE2b-256_SSWU_RO_" ∧
    pallasOrderBytes.length = 32 ∧ bytesToNat pallasOrderBytes = pallasN :=
  ⟨rfl, rfl, by decide, by decide⟩

/-! ## Claim C9: determinism of the hash-to-curve pipeline -/

/-- C9.  The Pallas hash-to-curve pipeline is deterministic: with the
external XMD expansion fixed (it is a function `H` of the field order, the
input, the tag and the count), two invocations of `HashToGroup`,
`EncodeToGroup` or `HashToScalar` on equal `(input, dst)` pairs yield equal
results; nothing besides `input`, `dst` and the fixed curve constants enters
the computation. -/
theorem hash_pipeline_deterministic (H : Nat → List Nat → List Nat → Nat → List Nat)
    (i₁ d₁ i₂ d₂ : List Nat) (hi : i₁ = i₂) (hd : d₁ = d₂) :
    hashToGroupM H i₁ d₁ = hashToGroupM H i₂ d₂ ∧
    encodeToGroupM H i₁ d₁ = encodeToGroupM H i₂ d₂ ∧
    hashToScalarM H i₁ d₁ = hashToScalarM H i₂ d₂ := by
  subst hi; subst hd; exact ⟨rfl, rfl, rfl⟩

/-- C9 witness at a concrete expansion function, input and tag. -/
theorem hash_pipeline_deterministic_witness :
    ([3] : List Nat) = [3] ∧
    hashToGroupM (fun _ _ _ _ => [1, 2]) [3] [4] =
      hashToGroupM (fun _ _ _ _ => [1, 2]) [3] [4] :=
  ⟨rfl, (hash_pipeline_deterministic (fun _ _ _ _ => [1, 2]) [3] [4] [3] [4] rfl rfl).1⟩

/-! ## Claim C6: operand checking -/

/-- C6 counterexample.  The claim says every binary operation (including
`Set` and `Multiply`) faults on an absent operand and on an operand bound to
a different field.  Concretely: `Multiply` with an absent scalar returns the
identity instead of faulting; `Multiply` with a scalar bound to a different
field (`n` instead of `p`) silently succeeds; `Set` with an absent operand
resets to the identity instead of faulting. -/
theorem operand_check_counterexample :
    multiplyChecked baseE pallasP ScalOperand.absent = Except.ok identityE ∧
    multiplyChecked baseE pallasP (ScalOperand.bound 3 pallasN) =
      Except.ok (multiplyE baseE 3) ∧
    setChecked pallasP ElemOperand.absent = Except.ok identityE :=
  ⟨rfl, rfl, rfl⟩

/-- C6 as amended.  `Add`, `Subtract` and `Equal` fault on an absent,
foreign, or differently-bound operand and succeed exactly on a same-field
Pallas operand; `Set` maps an absent operand to the identity and faults on
foreign or differently-bound operands; `Multiply` maps an absent or zero
scalar to the identity, faults on a foreign non-zero scalar, and performs no
field comparison at all on a Pallas scalar. -/
theorem operand_check_amended :
    (∀ e f, addChecked e f .absent = .error .nilPoint) ∧
    (∀ e f, addChecked e f .foreign = .error .castElement) ∧
    (∀ e f q fld, fld ≠ f → addChecked e f (.bound q fld) = .error .wrongField) ∧
    (∀ e f q, addChecked e f (.bound q f) = .ok (addE e q)) ∧
    (∀ e f, subtractChecked e f .absent = .error .nilPoint) ∧
    (∀ e f, subtractChecked e f .foreign = .error .castElement) ∧
    (∀ e f q fld, fld ≠ f → subtractChecked e f (.bound q fld) = .error .wrongField) ∧
    (∀ e f q, subtractChecked e f (.bound q f) = .ok (subME e q)) ∧
    (∀ e f, equalChecked e f .absent = .error .nilPoint) ∧
    (∀ e f, equalChecked e f .foreign = .error .castElement) ∧
    (∀ e f q fld, fld ≠ f → equalChecked e f (.bound q fld) = .error .wrongField) ∧
    (∀ e f q, equalChecked e f (.bound q f) = .ok (equalE e q)) ∧
    (∀ f, setChecked f .absent = .ok identityE) ∧
    (∀ f, setChecked f .foreign = .error .castElement) ∧
    (∀ f q fld, fld ≠ f → setChecked f (.bound q fld) = .error .wrongField) ∧
    (∀ f q, setChecked f (.bound q f) = .ok q) ∧
    (∀ e f, multiplyChecked e f .absent = .ok identityE) ∧
    (∀ e f, multiplyChecked e f (.foreign true) = .ok identityE) ∧
    (∀ e f, multiplyChecked e f (.foreign false) = .error .castScalar) ∧
    (∀ e f v fld, multiplyChecked e f (.bound v fld) =
      .ok (if v = 0 then identityE else multiplyE e v)) := by
  refine ⟨fun _ _ => rfl, fun _ _ => rfl, ?_, ?_, fun _ _ => rfl, fun _ _ => rfl,
    ?_, ?_, fun _ _ => rfl, fun _ _ => rfl, ?_, ?_, fun _ => rfl, fun _ => rfl,
    ?_, ?_, fun _ _ => rfl, fun _ _ => rfl, fun _ _ => rfl, ?_⟩
  all_goals intros
  all_goals
    first
    | (rename_i hne
       simp [addChecked, subtractChecked, equalChecked, setChecked,
         assertElement, Except.map, hne])
    | (rename_i v fld
       by_cases hv : v = 0 <;> simp [multiplyChecked, hv])
    | simp [addChecked, subtractChecked, equalChecked, setChecked,
        assertElement, Except.map]

/-- C6 amended-claim witness: the cross-field fault cases at concrete
operands bound to distinct fields. -/
theorem operand_check_amended_witness :
    pallasN ≠ pallasP ∧
    addChecked baseE pallasP (.bound identityE pallasN) = .error .wrongField ∧
    setChecked pallasP (.bound baseE pallasN) = .error .wrongField :=
  ⟨by decide, operand_check_amended.2.2.1 baseE pallasP identityE pallasN (by decide),
    operand_check_amended.2.2.2.2.2.2.2.2.2.2.2.2.2.2.1 pallasP baseE pallasN (by decide)⟩

/-! ## Claim C5: scalar-multiplication consistency -/

/-- C5.  For the Pallas group with order `n`: `Base().Multiply(n)` yields
the identity, `Base().Multiply(1)` yields the generator, and
`Base().Multiply(2)` equals `Base().Double()`. -/
theorem base_multiply_consistency :
    isIdentityE (multiplyE baseE pallasN) = true ∧
    equalE (multiplyE baseE 1) baseE = 1 ∧
    equalE (multiplyE baseE 2) (doubleE baseE) = 1 :=
  ⟨by decide, by decide, by decide⟩

end ECC

namespace ECC

/-! ## Byte-string lemmas -/

theorem bytesToNat_foldl_acc (l : List Nat) :
    ∀ acc, l.foldl (fun a b => a * 256 + b) acc =
      acc * 256 ^ l.length + l.foldl (fun a b => a * 256 + b) 0 := by
  induction l with
  | nil => intro acc; simp
  | cons b l ih =>
    intro acc
    show l.foldl _ (acc * 256 + b) =
      acc * 256 ^ (l.length + 1) + l.foldl _ (0 * 256 + b)
    rw [ih (acc * 256 + b), ih (0 * 256 + b)]
    ring

theorem bytesToNat_cons (b : Nat) (l : List Nat) :
    bytesToNat (b :: l) = b * 256 ^ l.length + bytesToNat l := by
  unfold bytesToNat
  show l.foldl _ (0 * 256 + b) = _
  rw [bytesToNat_foldl_acc l (0 * 256 + b)]
  ring_nf

theorem bytesToNat_append (l₁ l₂ : List Nat) :
    bytesToNat (l₁ ++ l₂) = bytesToNat l₁ * 256 ^ l₂.length + bytesToNat l₂ := by
  unfold bytesToNat
  rw [List.foldl_append]
  exact bytesToNat_foldl_acc l₂ _

theorem bytesToNat_singleton (b : Nat) : bytesToNat [b] = b := by
  unfold bytesToNat
  simp

theorem bytesToNat_lt (l : List Nat) (h : ∀ b ∈ l, b < 256) :
    bytesToNat l < 256 ^ l.length := by
  induction l with
  | nil => simp [bytesToNat]
  | cons b l ih =>
    have hb : b < 256 := h b (by simp)
    have hl : bytesToNat l < 256 ^ l.length := ih (fun x hx => h x (by simp [hx]))
    rw [bytesToNat_cons]
    calc b * 256 ^ l.length + bytesToNat l
        < b * 256 ^ l.length + 256 ^ l.length := by omega
    _ = (b + 1) * 256 ^ l.length := by ring
    _ ≤ 256 * 256 ^ l.length := Nat.mul_le_mul_right _ (by omega)
    _ = 256 ^ (l.length + 1) := by rw [pow_succ]; ring

theorem bytesToNat_replicate_zero (k : Nat) : bytesToNat (List.replicate k 0) = 0 := by
  induction k with
  | zero => rfl
  | succ k ih => rw [List.replicate_succ, bytesToNat_cons, ih]; ring

theorem bytesToNat_pad_zero (k : Nat) (l : List Nat) :
    bytesToNat (List.replicate k 0 ++ l) = bytesToNat l := by
  rw [bytesToNat_append, bytesToNat_replicate_zero]; ring

theorem natBytesLEAux_val : ∀ fuel n, n < 256 ^ fuel →
    bytesToNat (natBytesLEAux fuel n).reverse = n := by
  intro fuel
  induction fuel with
  | zero =>
    intro n hn
    have : n = 0 := by simpa using Nat.lt_one_iff.mp (by simpa using hn)
    subst this; simp [natBytesLEAux, bytesToNat]
  | succ f ih =>
    intro n hn
    by_cases h0 : n = 0
    · subst h0; simp [natBytesLEAux, bytesToNat]
    · have hdiv : n / 256 < 256 ^ f := by
        rw [Nat.div_lt_iff_lt_mul (by omega)]
        calc n < 256 ^ (f + 1) := hn
        _ = 256 ^ f * 256 := by rw [pow_succ]
      rw [natBytesLEAux, if_neg h0, List.reverse_cons, bytesToNat_append,
        ih _ hdiv, bytesToNat_singleton]
      simp only [List.length_singleton, pow_one]
      omega

theorem natBytesBE_val (n : Nat) : bytesToNat (natBytesBE n) = n := by
  unfold natBytesBE natBytesLE
  refine natBytesLEAux_val (n + 1) n ?_
  calc n < 2 ^ n := Nat.lt_two_pow n
  _ ≤ 256 ^ n := Nat.pow_le_pow_left (by omega) n
  _ ≤ 256 ^ (n + 1) := Nat.pow_le_pow_right (by omega) (by omega)

theorem natBytesLEAux_len : ∀ fuel n L, n < 256 ^ L →
    (natBytesLEAux fuel n).length ≤ L := by
  intro fuel
  induction fuel with
  | zero => intro n L _; simp [natBytesLEAux]
  | succ f ih =>
    intro n L hn
    by_cases h0 : n = 0
    · subst h0; simp [natBytesLEAux]
    · have hL : L ≠ 0 := by
        rintro rfl
        simp at hn
        omega
      have hdiv : n / 256 < 256 ^ (L - 1) := by
        rw [Nat.div_lt_iff_lt_mul (by omega)]
        calc n < 256 ^ L := hn
        _ = 256 ^ (L - 1) * 256 := by
              rw [← pow_succ]
              congr 1
              omega
      rw [natBytesLEAux, if_neg h0]
      have := ih (n / 256) (L - 1) hdiv
      simp only [List.length_cons]
      omega

theorem natBytesBE_len (n L : Nat) (h : n < 256 ^ L) : (natBytesBE n).length ≤ L := by
  unfold natBytesBE natBytesLE
  rw [List.length_reverse]
  exact natBytesLEAux_len (n + 1) n L h

theorem natBytesLEAux_bytes_lt : ∀ fuel n b, b ∈ natBytesLEAux fuel n → b < 256 := by
  intro fuel
  induction fuel with
  | zero => intro n b hb; simp [natBytesLEAux] at hb
  | succ f ih =>
    intro n b hb
    unfold natBytesLEAux at hb
    by_cases h0 : n = 0
    · simp [h0] at hb
    · rw [if_neg h0] at hb
      rcases List.mem_cons.mp hb with h | h
      · subst h; exact Nat.mod_lt _ (by omega)
      · exact ih _ _ h

theorem pad32_bytes_lt (n b : Nat) (hb : b ∈ pad32 n) : b < 256 := by
  unfold pad32 at hb
  rcases List.mem_append.mp hb with h | h
  · have := List.eq_of_mem_replicate h
    omega
  · exact natBytesLEAux_bytes_lt (n + 1) n b (List.mem_reverse.mp h)

theorem pad32_val (n : Nat) : bytesToNat (pad32 n) = n := by
  unfold pad32
  rw [bytesToNat_pad_zero, natBytesBE_val]

theorem pad32_len (n : Nat) (h : n < 256 ^ 32) : (pad32 n).length = 32 := by
  unfold pad32
  have := natBytesBE_len n 32 h
  rw [List.length_append, List.length_replicate]
  omega

theorem bytesToNat_inj (l₁ : List Nat) :
    ∀ l₂, (∀ b ∈ l₁, b < 256) → (∀ b ∈ l₂, b < 256) →
    l₁.length = l₂.length → bytesToNat l₁ = bytesToNat l₂ → l₁ = l₂ := by
  induction l₁ with
  | nil =>
    intro l₂ _ _ hlen _
    cases l₂ with
    | nil => rfl
    | cons b l => simp at hlen
  | cons a l₁ ih =>
    intro l₂ h1 h2 hlen hv
    cases l₂ with
    | nil => simp at hlen
    | cons b l₂ =>
      have hlen' : l₁.length = l₂.length := by simpa using hlen
      rw [bytesToNat_cons, bytesToNat_cons, hlen'] at hv
      have hv1 : bytesToNat l₁ < 256 ^ l₂.length := by
        rw [← hlen']
        exact bytesToNat_lt l₁ (fun x hx => h1 x (by simp [hx]))
      have hv2 : bytesToNat l₂ < 256 ^ l₂.length := bytesToNat_lt l₂ (fun x hx => h2 x (by simp [hx]))
      have hK : 0 < 256 ^ l₂.length := Nat.pos_pow_of_pos _ (by omega)
      have hab : a = b := by
        have ha : (a * 256 ^ l₂.length + bytesToNat l₁) / 256 ^ l₂.length = a := by
          rw [Nat.mul_comm a, Nat.mul_add_div hK, Nat.div_eq_of_lt hv1]
          omega
        have hb : (b * 256 ^ l₂.length + bytesToNat l₂) / 256 ^ l₂.length = b := by
          rw [Nat.mul_comm b, Nat.mul_add_div hK, Nat.div_eq_of_lt hv2]
          omega
        rw [← ha, ← hb, hv]
      subst hab
      have hrest : bytesToNat l₁ = bytesToNat l₂ := by omega
      rw [ih l₂ (fun x hx => h1 x (by simp [hx])) (fun x hx => h2 x (by simp [hx])) hlen' hrest]

theorem pad32_of_bytes (l : List Nat) (h : ∀ b ∈ l, b < 256) (hlen : l.length = 32) :
    pad32 (bytesToNat l) = l := by
  have hval : bytesToNat l < 256 ^ 32 := hlen ▸ bytesToNat_lt l h
  refine bytesToNat_inj _ l (fun b hb => pad32_bytes_lt _ b hb) h ?_ ?_
  · rw [pad32_len _ hval, hlen]
  · rw [pad32_val]

/-! ## Claim C8: NIST `HashToScalar` fixed-width padding -/

/-- C8.  The NIST `HashToScalar` left-zero-pads the byte representation of
the integer produced by the external hash-to-field routine to exactly
`ScalarLength()` bytes before interpreting it, so the interpreted scalar
value is the routine's integer and its canonical encoding is exactly
`ScalarLength()` bytes.  The hypothesis models the routine's contract (its
result is reduced modulo the group order, which fits the scalar width). -/
theorem nist_hash_to_scalar_padding (L h : Nat) (hh : h < 256 ^ L) :
    (nistHashToScalarBytes L h).length = L ∧ nistHashToScalar L h = h := by
  have hlen : (natBytesBE h).length ≤ L := natBytesBE_len h L hh
  unfold nistHashToScalar nistHashToScalarBytes
  by_cases hlt : (natBytesBE h).length < L
  · rw [if_pos hlt]
    constructor
    · rw [List.length_append, List.length_replicate]
      omega
    · rw [bytesToNat_pad_zero, natBytesBE_val]
  · rw [if_neg hlt]
    exact ⟨by omega, natBytesBE_val h⟩

/-- C8 witness at `L = 32`, `h = 5`. -/
theorem nist_hash_to_scalar_padding_witness :
    (5 : Nat) < 256 ^ 32 ∧ (nistHashToScalarBytes 32 5).length = 32 ∧
      nistHashToScalar 32 5 = 5 :=
  ⟨by decide, nist_hash_to_scalar_padding 32 5 (by decide)⟩

end ECC

namespace ECC

/-! ## Claim C4: the double-and-add structure of `Multiply` -/

theorem mulBits8_eq_rtlPair (b : Nat) (res base : PElement) :
    mulBits8 8 b res base = rtlPair (byteBitsLE b) res base := by
  simp [mulBits8, rtlPair, byteBitsLE, Nat.div_div_eq_div_mul]

theorem rtlPair_append (l₁ : List Bool) :
    ∀ l₂ res base, rtlPair (l₁ ++ l₂) res base =
      rtlPair l₂ (rtlPair l₁ res base).1 (rtlPair l₁ res base).2 := by
  induction l₁ with
  | nil => intro l₂ res base; rfl
  | cons bit rest ih =>
    intro l₂ res base
    show rtlPair (rest ++ l₂) _ _ = _
    rw [ih]
    rfl

theorem mulBytesLE_eq_rtlPair (bytes : List Nat) :
    ∀ res base, mulBytesLE bytes res base =
      (rtlPair ((bytes.map byteBitsLE).flatten) res base).1 := by
  induction bytes with
  | nil => intro res base; rfl
  | cons b rest ih =>
    intro res base
    show mulBytesLE rest (mulBits8 8 b res base).1 (mulBits8 8 b res base).2 = _
    rw [ih, List.map_cons, List.flatten_cons, rtlPair_append, mulBits8_eq_rtlPair]

theorem rtlPair_replicate_false (j : Nat) :
    ∀ res base, (rtlPair (List.replicate j false) res base).1 = res := by
  induction j with
  | zero => intro res base; rfl
  | succ j ih =>
    intro res base
    rw [List.replicate_succ]
    show (rtlPair (List.replicate j false) res (doubleE base)).1 = res
    exact ih res (doubleE base)

theorem rtlPair_false_tail (l : List Bool) (j : Nat) (res base : PElement) :
    (rtlPair (l ++ List.replicate j false) res base).1 = (rtlPair l res base).1 := by
  rw [rtlPair_append, rtlPair_replicate_false]

theorem natBitsLEAux_zero (fuel : Nat) : natBitsLEAux fuel 0 = [] := by
  cases fuel <;> simp [natBitsLEAux]

theorem natBitsLEAux_fuel : ∀ f₁ f₂ n, n < 2 ^ f₁ → n < 2 ^ f₂ →
    natBitsLEAux f₁ n = natBitsLEAux f₂ n := by
  intro f₁
  induction f₁ with
  | zero =>
    intro f₂ n h1 _
    have : n = 0 := by simpa using Nat.lt_one_iff.mp (by simpa using h1)
    subst this
    rw [natBitsLEAux_zero, natBitsLEAux_zero]
  | succ f ih =>
    intro f₂ n h1 h2
    by_cases h0 : n = 0
    · subst h0; rw [natBitsLEAux_zero, natBitsLEAux_zero]
    · cases f₂ with
      | zero =>
        exfalso
        have : n = 0 := by simpa using Nat.lt_one_iff.mp (by simpa using h2)
        exact h0 this
      | succ g =>
        have hf : n / 2 < 2 ^ f := by
          rw [Nat.div_lt_iff_lt_mul (by omega)]
          calc n < 2 ^ (f + 1) := h1
          _ = 2 ^ f * 2 := by rw [pow_succ]
        have hg : n / 2 < 2 ^ g := by
          rw [Nat.div_lt_iff_lt_mul (by omega)]
          calc n < 2 ^ (g + 1) := h2
          _ = 2 ^ g * 2 := by rw [pow_succ]
        show natBitsLEAux (f + 1) n = natBitsLEAux (g + 1) n
        rw [natBitsLEAux, natBitsLEAux, if_neg h0, if_neg h0, ih g (n / 2) hf hg]

theorem natBitsLE_cons (n : Nat) (h0 : n ≠ 0) :
    natBitsLE n = (n % 2 == 1) :: natBitsLE (n / 2) := by
  unfold natBitsLE
  rw [natBitsLEAux, if_neg h0]
  congr 1
  refine natBitsLEAux_fuel n (n / 2 + 1) (n / 2) ?_ ?_
  · calc n / 2 < n := Nat.div_lt_self (by omega) (by omega)
    _ < 2 ^ n := Nat.lt_two_pow n
  · calc n / 2 < 2 ^ (n / 2) := Nat.lt_two_pow _
    _ ≤ 2 ^ (n / 2 + 1) := Nat.pow_le_pow_right (by omega) (by omega)

theorem bits_padding (l : List Bool) :
    ∃ j, l = natBitsLE (bitsVal l) ++ List.replicate j false := by
  induction l with
  | nil => exact ⟨0, rfl⟩
  | cons b r ih =>
    obtain ⟨j, hj⟩ := ih
    by_cases hv : bitsVal (b :: r) = 0
    · have hb : b = false := by
        by_contra hb
        have : b = true := by
          cases b
          · exact absurd rfl hb
          · rfl
        rw [this] at hv
        simp [bitsVal] at hv
      have hr : bitsVal r = 0 := by
        rw [hb] at hv
        simp [bitsVal] at hv
        exact hv
      refine ⟨j + 1, ?_⟩
      rw [hv]
      show b :: r = natBitsLE 0 ++ List.replicate (j + 1) false
      rw [hb, hj, hr]
      show false :: (natBitsLE 0 ++ List.replicate j false) = _
      rfl
    · have hcons := natBitsLE_cons (bitsVal (b :: r)) hv
      have hbit : (bitsVal (b :: r) % 2 == 1) = b := by
        cases b <;> simp [bitsVal]
      have hdiv : bitsVal (b :: r) / 2 = bitsVal r := by
        cases b <;> simp [bitsVal] <;> omega
      refine ⟨j, ?_⟩
      rw [hcons, hbit, hdiv]
      show b :: r = b :: (natBitsLE (bitsVal r) ++ List.replicate j false)
      rw [← hj]

theorem bitsVal_byteBitsLE (b : Nat) : bitsVal (byteBitsLE b) = b % 256 := by
  have key : ∀ m : Nat, (if (m % 2 == 1) = true then (1 : Nat) else 0) = m % 2 := by
    intro m
    rcases Nat.mod_two_eq_zero_or_one m with h | h <;> simp [h]
  simp only [byteBitsLE, bitsVal, key]
  omega

theorem bitsVal_append (l₁ : List Bool) :
    ∀ l₂, bitsVal (l₁ ++ l₂) = bitsVal l₁ + 2 ^ l₁.length * bitsVal l₂ := by
  induction l₁ with
  | nil => intro l₂; simp [bitsVal]
  | cons b r ih =>
    intro l₂
    show bitsVal (b :: (r ++ l₂)) = _
    rw [bitsVal, bitsVal, ih l₂, List.length_cons, pow_succ]
    ring

theorem bitsVal_flatten_bytes : ∀ fuel k, k < 256 ^ fuel →
    bitsVal (((natBytesLEAux fuel k).map byteBitsLE).flatten) = k := by
  intro fuel
  induction fuel with
  | zero =>
    intro k hk
    have : k = 0 := by simpa using Nat.lt_one_iff.mp (by simpa using hk)
    subst this
    rfl
  | succ f ih =>
    intro k hk
    by_cases h0 : k = 0
    · subst h0; rfl
    · have hdiv : k / 256 < 256 ^ f := by
        rw [Nat.div_lt_iff_lt_mul (by omega)]
        calc k < 256 ^ (f + 1) := hk
        _ = 256 ^ f * 256 := by rw [pow_succ]
      rw [natBytesLEAux, if_neg h0, List.map_cons, List.flatten_cons,
        bitsVal_append, bitsVal_byteBitsLE, ih _ hdiv]
      have hlen : (byteBitsLE (k % 256)).length = 8 := rfl
      rw [hlen]
      omega

/-- C4 counterexample.  The claim describes `Multiply` as left-to-right
double-and-add processing bits most-significant-first; running the
most-significant-first algorithm next to the source's algorithm on the
scalar 3 applied to the generator produces a different resulting element
state. -/
theorem multiply_msb_counterexample : multiplyE baseE 3 ≠ mulMSBSpec baseE 3 := by
  decide

/-- C4 as amended.  `Element.Multiply` computes double-and-add over the
scalar's big-endian bytes processed right-to-left — least-significant byte
first and bits least-significant-first within each byte, i.e. the scalar's
bits least-significant-first, doubling the running base at every step — and
yields the identity when the scalar is absent (nil) or zero. -/
theorem multiply_rtl_amended :
    (∀ e k, multiplyE e k = mulRTLSpec e k) ∧
    (∀ e f, multiplyChecked e f .absent = .ok identityE) ∧
    (∀ e : PElement, multiplyE e 0 = identityE) := by
  refine ⟨?_, fun _ _ => rfl, fun _ => rfl⟩
  intro e k
  by_cases h0 : k = 0
  · subst h0; rfl
  · unfold multiplyE mulRTLSpec
    rw [if_neg h0, if_neg h0, mulBytesLE_eq_rtlPair]
    have hval : bitsVal (((natBytesLE k).map byteBitsLE).flatten) = k := by
      unfold natBytesLE
      refine bitsVal_flatten_bytes (k + 1) k ?_
      calc k < 2 ^ k := Nat.lt_two_pow k
      _ ≤ 256 ^ k := Nat.pow_le_pow_left (by omega) k
      _ ≤ 256 ^ (k + 1) := Nat.pow_le_pow_right (by omega) (by omega)
    obtain ⟨j, hj⟩ := bits_padding (((natBytesLE k).map byteBitsLE).flatten)
    rw [hval] at hj
    rw [hj, rtlPair_false_tail]

end ECC

namespace ECC

/-! ## Primality of the Pallas base-field modulus

The Lucas-Pratt certificate chain below establishes `Nat.Prime pallasP`,
which the Euler/Fermat arguments about `Element.sqrt` and `Element.Decode`
rely on.  Every exponentiation is evaluated through `powM`. -/

theorem zmod_natCast_ne_one (p r : Nat) (hp : 1 < p) (hr : r < p) (h1 : r ≠ 1) :
    ((r : Nat) : ZMod p) ≠ 1 := by
  haveI : NeZero p := ⟨by omega⟩
  intro h
  have hval := ZMod.val_cast_of_lt hr
  rw [h, ZMod.val_one_eq_one_mod, Nat.mod_eq_of_lt hp] at hval
  exact h1 hval.symm

theorem prattStep1 : Nat.Prime 417677162933 := by
  refine lucas_primality 417677162933 ((2 : Nat) : ZMod 417677162933) ?_ ?_
  · rw [← powM_cast]
    have h : powM 417677162933 2 (417677162933 - 1) = 1 := by decide
    rw [h]
    exact Nat.cast_one
  · intro q hq hdvd
    have hfac : 417677162933 - 1 = 2 ^ 2 * (59 * (1973 * (897019))) := by decide
    rw [hfac] at hdvd
    rcases (Nat.Prime.dvd_mul hq).mp hdvd with h0 | h0
    · have heq : q = 2 := (Nat.prime_dvd_prime_iff_eq hq (by norm_num : Nat.Prime 2)).mp (hq.dvd_of_dvd_pow h0)
      subst heq
      rw [← powM_cast]
      exact zmod_natCast_ne_one 417677162933 _ (by decide) (powM_lt _ _ _ (by decide)) (by decide)
    · rcases (Nat.Prime.dvd_mul hq).mp h0 with h1 | h1
      · have heq : q = 59 := (Nat.prime_dvd_prime_iff_eq hq (by norm_num : Nat.Prime 59)).mp h1
        subst heq
        rw [← powM_cast]
        exact zmod_natCast_ne_one 417677162933 _ (by decide) (powM_lt _ _ _ (by decide)) (by decide)
      · rcases (Nat.Prime.dvd_mul hq).mp h1 with h2 | h2
        · have heq : q = 1973 := (Nat.prime_dvd_prime_iff_eq hq (by norm_num : Nat.Prime 1973)).mp h2
          subst heq
          rw [← powM_cast]
          exact zmod_natCast_ne_one 417677162933 _ (by decide) (powM_lt _ _ _ (by decide)) (by decide)
        · have heq : q = 897019 := (Nat.prime_dvd_prime_iff_eq hq (by norm_num : Nat.Prime 897019)).mp h2
          subst heq
          rw [← powM_cast]
          exact zmod_natCast_ne_one 417677162933 _ (by decide) (powM_lt _ _ _ (by decide)) (by decide)

theorem prattStep2 : Nat.Prime 539204044132271846773 := by
  refine lucas_primality 539204044132271846773 ((5 : Nat) : ZMod 539204044132271846773) ?_ ?_
  · rw [← powM_cast]
    have h : powM 539204044132271846773 5 (539204044132271846773 - 1) = 1 := by decide
    rw [h]
    exact Nat.cast_one
  · intro q hq hdvd
    have hfac : 539204044132271846773 - 1 = 2 ^ 2 * (3 ^ 5 * (89 * (14923 * (417677162933)))) := by decide
    rw [hfac] at hdvd
    rcases (Nat.Prime.dvd_mul hq).mp hdvd with h0 | h0
    · have heq : q = 2 := (Nat.prime_dvd_prime_iff_eq hq (by norm_num : Nat.Prime 2)).mp (hq.dvd_of_dvd_pow h0)
      subst heq
      rw [← powM_cast]
      exact zmod_natCast_ne_one 539204044132271846773 _ (by decide) (powM_lt _ _ _ (by decide)) (by decide)
    · rcases (Nat.Prime.dvd_mul hq).mp h0 with h1 | h1
      · have heq : q = 3 := (Nat.prime_dvd_prime_iff_eq hq (by norm_num : Nat.Prime 3)).mp (hq.dvd_of_dvd_pow h1)
        subst heq
        rw [← powM_cast]
        exact zmod_natCast_ne_one 539204044132271846773 _ (by decide) (powM_lt _ _ _ (by decide)) (by decide)
      · rcases (Nat.Prime.dvd_mul hq).mp h1 with h2 | h2
        · have heq : q = 89 := (Nat.prime_dvd_prime_iff_eq hq (by norm_num : Nat.Prime 89)).mp h2
          subst heq
          rw [← powM_cast]
          exact zmod_natCast_ne_one 539204044132271846773 _ (by decide) (powM_lt _ _ _ (by decide)) (by decide)
        · rcases (Nat.Prime.dvd_mul hq).mp h2 with h3 | h3
          · have heq : q = 14923 := (Nat.prime_dvd_prime_iff_eq hq (by norm_num : Nat.Prime 14923)).mp h3
            subst heq
            rw [← powM_cast]
            exact zmod_natCast_ne_one 539204044132271846773 _ (by decide) (powM_lt _ _ _ (by decide)) (by decide)
          · have heq : q = 417677162933 := (Nat.prime_dvd_prime_iff_eq hq prattStep1).mp h3
            subst heq
            rw [← powM_cast]
            exact zmod_natCast_ne_one 539204044132271846773 _ (by decide) (powM_lt _ _ _ (by decide)) (by decide)

theorem prattStep3 : Nat.Prime 1197907 := by
  refine lucas_primality 1197907 ((3 : Nat) : ZMod 1197907) ?_ ?_
  · rw [← powM_cast]
    have h : powM 1197907 3 (1197907 - 1) = 1 := by decide
    rw [h]
    exact Nat.cast_one
  · intro q hq hdvd
    have hfac : 1197907 - 1 = 2 * (3 * (53 * (3767))) := by decide
    rw [hfac] at hdvd
    rcases (Nat.Prime.dvd_mul hq).mp hdvd with h0 | h0
    · have heq : q = 2 := (Nat.prime_dvd_prime_iff_eq hq (by norm_num : Nat.Prime 2)).mp h0
      subst heq
      rw [← powM_cast]
      exact zmod_natCast_ne_one 1197907 _ (by decide) (powM_lt _ _ _ (by decide)) (by decide)
    · rcases (Nat.Prime.dvd_mul hq).mp h0 with h1 | h1
      · have heq : q = 3 := (Nat.prime_dvd_prime_iff_eq hq (by norm_num : Nat.Prime 3)).mp h1
        subst heq
        rw [← powM_cast]
        exact zmod_natCast_ne_one 1197907 _ (by decide) (powM_lt _ _ _ (by decide)) (by decide)
      · rcases (Nat.Prime.dvd_mul hq).mp h1 with h2 | h2
        · have heq : q = 53 := (Nat.prime_dvd_prime_iff_eq hq (by norm_num : Nat.Prime 53)).mp h2
          subst heq
          rw [← powM_cast]
          exact zmod_natCast_ne_one 1197907 _ (by decide) (powM_lt _ _ _ (by decide)) (by decide)
        · have heq : q = 3767 := (Nat.prime_dvd_prime_iff_eq hq (by norm_num : Nat.Prime 3767)).mp h2
          subst heq
          rw [← powM_cast]
          exact zmod_natCast_ne_one 1197907 _ (by decide) (powM_lt _ _ _ (by decide)) (by decide)

theorem prattStep4 : Nat.Prime 6942563 := by
  refine lucas_primality 6942563 ((2 : Nat) : ZMod 6942563) ?_ ?_
  · rw [← powM_cast]
    have h : powM 6942563 2 (6942563 - 1) = 1 := by decide
    rw [h]
    exact Nat.cast_one
  · intro q hq hdvd
    have hfac : 6942563 - 1 = 2 * (11 * (17 * (19 * (977)))) := by decide
    rw [hfac] at hdvd
    rcases (Nat.Prime.dvd_mul hq).mp hdvd with h0 | h0
    · have heq : q = 2 := (Nat.prime_dvd_prime_iff_eq hq (by norm_num : Nat.Prime 2)).mp h0
      subst heq
      rw [← powM_cast]
      exact zmod_natCast_ne_one 6942563 _ (by decide) (powM_lt _ _ _ (by decide)) (by decide)
    · rcases (Nat.Prime.dvd_mul hq).mp h0 with h1 | h1
      · have heq : q = 11 := (Nat.prime_dvd_prime_iff_eq hq (by norm_num : Nat.Prime 11)).mp h1
        subst heq
        rw [← powM_cast]
        exact zmod_natCast_ne_one 6942563 _ (by decide) (powM_lt _ _ _ (by decide)) (by decide)
      · rcases (Nat.Prime.dvd_mul hq).mp h1 with h2 | h2
        · have heq : q = 17 := (Nat.prime_dvd_prime_iff_eq hq (by norm_num : Nat.Prime 17)).mp h2
          subst heq
          rw [← powM_cast]
          exact zmod_natCast_ne_one 6942563 _ (by decide) (powM_lt _ _ _ (by decide)) (by decide)
        · rcases (Nat.Prime.dvd_mul hq).mp h2 with h3 | h3
          · have heq : q = 19 := (Nat.prime_dvd_prime_iff_eq hq (by norm_num : Nat.Prime 19)).mp h3
            subst heq
            rw [← powM_cast]
            exact zmod_natCast_ne_one 6942563 _ (by decide) (powM_lt _ _ _ (by decide)) (by decide)
          · have heq : q = 977 := (Nat.prime_dvd_prime_iff_eq hq (by norm_num : Nat.Prime 977)).mp h3
            subst heq
            rw [← powM_cast]
            exact zmod_natCast_ne_one 6942563 _ (by decide) (powM_lt _ _ _ (by decide)) (by decide)

theorem prattStep5 : Nat.Prime 41655379 := by
  refine lucas_primality 41655379 ((2 : Nat) : ZMod 41655379) ?_ ?_
  · rw [← powM_cast]
    have h : powM 41655379 2 (41655379 - 1) = 1 := by decide
    rw [h]
    exact Nat.cast_one
  · intro q hq hdvd
    have hfac : 41655379 - 1 = 2 * (3 * (6942563)) := by decide
    rw [hfac] at hdvd
    rcases (Nat.Prime.dvd_mul hq).mp hdvd with h0 | h0
    · have heq : q = 2 := (Nat.prime_dvd_prime_iff_eq hq (by norm_num : Nat.Prime 2)).mp h0
      subst heq
      rw [← powM_cast]
      exact zmod_natCast_ne_one 41655379 _ (by decide) (powM_lt _ _ _ (by decide)) (by decide)
    · rcases (Nat.Prime.dvd_mul hq).mp h0 with h1 | h1
      · have heq : q = 3 := (Nat.prime_dvd_prime_iff_eq hq (by norm_num : Nat.Prime 3)).mp h1
        subst heq
        rw [← powM_cast]
        exact zmod_natCast_ne_one 41655379 _ (by decide) (powM_lt _ _ _ (by decide)) (by decide)
      · have heq : q = 6942563 := (Nat.prime_dvd_prime_iff_eq hq prattStep4).mp h1
        subst heq
        rw [← powM_cast]
        exact zmod_natCast_ne_one 41655379 _ (by decide) (powM_lt _ _ _ (by decide)) (by decide)

theorem prattStep6 : Nat.Prime 22160661629 := by
  refine lucas_primality 22160661629 ((3 : Nat) : ZMod 22160661629) ?_ ?_
  · rw [← powM_cast]
    have h : powM 22160661629 3 (22160661629 - 1) = 1 := by decide
    rw [h]
    exact Nat.cast_one
  · intro q hq hdvd
    have hfac : 22160661629 - 1 = 2 ^ 2 * (7 * (19 * (41655379))) := by decide
    rw [hfac] at hdvd
    rcases (Nat.Prime.dvd_mul hq).mp hdvd with h0 | h0
    · have heq : q = 2 := (Nat.prime_dvd_prime_iff_eq hq (by norm_num : Nat.Prime 2)).mp (hq.dvd_of_dvd_pow h0)
      subst heq
      rw [← powM_cast]
      exact zmod_natCast_ne_one 22160661629 _ (by decide) (powM_lt _ _ _ (by decide)) (by decide)
    · rcases (Nat.Prime.dvd_mul hq).mp h0 with h1 | h1
      · have heq : q = 7 := (Nat.prime_dvd_prime_iff_eq hq (by norm_num : Nat.Prime 7)).mp h1
        subst heq
        rw [← powM_cast]
        exact zmod_natCast_ne_one 22160661629 _ (by decide) (powM_lt _ _ _ (by decide)) (by decide)
      · rcases (Nat.Prime.dvd_mul hq).mp h1 with h2 | h2
        · have heq : q = 19 := (Nat.prime_dvd_prime_iff_eq hq (by norm_num : Nat.Prime 19)).mp h2
          subst heq
          rw [← powM_cast]
          exact zmod_natCast_ne_one 22160661629 _ (by decide) (powM_lt _ _ _ (by decide)) (by decide)
        · have heq : q = 41655379 := (Nat.prime_dvd_prime_iff_eq hq prattStep5).mp h2
          subst heq
          rw [← powM_cast]
          exact zmod_natCast_ne_one 22160661629 _ (by decide) (powM_lt _ _ _ (by decide)) (by decide)

theorem prattStep7 : Nat.Prime 325086459374267 := by
  refine lucas_primality 325086459374267 ((2 : Nat) : ZMod 325086459374267) ?_ ?_
  · rw [← powM_cast]
    have h : powM 325086459374267 2 (325086459374267 - 1) = 1 := by decide
    rw [h]
    exact Nat.cast_one
  · intro q hq hdvd
    have hfac : 325086459374267 - 1 = 2 * (509 * (413527 * (772231))) := by decide
    rw [hfac] at hdvd
    rcases (Nat.Prime.dvd_mul hq).mp hdvd with h0 | h0
    · have heq : q = 2 := (Nat.prime_dvd_prime_iff_eq hq (by norm_num : Nat.Prime 2)).mp h0
      subst heq
      rw [← powM_cast]
      exact zmod_natCast_ne_one 325086459374267 _ (by decide) (powM_lt _ _ _ (by decide)) (by decide)
    · rcases (Nat.Prime.dvd_mul hq).mp h0 with h1 | h1
      · have heq : q = 509 := (Nat.prime_dvd_prime_iff_eq hq (by norm_num : Nat.Prime 509)).mp h1
        subst heq
        rw [← powM_cast]
        exact zmod_natCast_ne_one 325086459374267 _ (by decide) (powM_lt _ _ _ (by decide)) (by decide)
      · rcases (Nat.Prime.dvd_mul hq).mp h1 with h2 | h2
        · have heq : q = 413527 := (Nat.prime_dvd_prime_iff_eq hq (by norm_num : Nat.Prime 413527)).mp h2
          subst heq
          rw [← powM_cast]
          exact zmod_natCast_ne_one 325086459374267 _ (by decide) (powM_lt _ _ _ (by decide)) (by decide)
        · have heq : q = 772231 := (Nat.prime_dvd_prime_iff_eq hq (by norm_num : Nat.Prime 772231)).mp h2
          subst heq
          rw [← powM_cast]
          exact zmod_natCast_ne_one 325086459374267 _ (by decide) (powM_lt _ _ _ (by decide)) (by decide)

theorem prattStep8 : Nat.Prime 8999194758858563409123804352480028797519453 := by
  refine lucas_primality 8999194758858563409123804352480028797519453 ((2 : Nat) : ZMod 8999194758858563409123804352480028797519453) ?_ ?_
  · rw [← powM_cast]
    have h : powM 8999194758858563409123804352480028797519453 2 (8999194758858563409123804352480028797519453 - 1) = 1 := by decide
    rw [h]
    exact Nat.cast_one
  · intro q hq hdvd
    have hfac : 8999194758858563409123804352480028797519453 - 1 = 2 ^ 2 * (3 ^ 4 * (11 * (2531 * (115603 * (1197907 * (22160661629 * (325086459374267))))))) := by decide
    rw [hfac] at hdvd
    rcases (Nat.Prime.dvd_mul hq).mp hdvd with h0 | h0
    · have heq : q = 2 := (Nat.prime_dvd_prime_iff_eq hq (by norm_num : Nat.Prime 2)).mp (hq.dvd_of_dvd_pow h0)
      subst heq
      rw [← powM_cast]
      exact zmod_natCast_ne_one 8999194758858563409123804352480028797519453 _ (by decide) (powM_lt _ _ _ (by decide)) (by decide)
    · rcases (Nat.Prime.dvd_mul hq).mp h0 with h1 | h1
      · have heq : q = 3 := (Nat.prime_dvd_prime_iff_eq hq (by norm_num : Nat.Prime 3)).mp (hq.dvd_of_dvd_pow h1)
        subst heq
        rw [← powM_cast]
        exact zmod_natCast_ne_one 8999194758858563409123804352480028797519453 _ (by decide) (powM_lt _ _ _ (by decide)) (by decide)
      · rcases (Nat.Prime.dvd_mul hq).mp h1 with h2 | h2
        · have heq : q = 11 := (Nat.prime_dvd_prime_iff_eq hq (by norm_num : Nat.Prime 11)).mp h2
          subst heq
          rw [← powM_cast]
          exact zmod_natCast_ne_one 8999194758858563409123804352480028797519453 _ (by decide) (powM_lt _ _ _ (by decide)) (by decide)
        · rcases (Nat.Prime.dvd_mul hq).mp h2 with h3 | h3
          · have heq : q = 2531 := (Nat.prime_dvd_prime_iff_eq hq (by norm_num : Nat.Prime 2531)).mp h3
            subst heq
            rw [← powM_cast]
            exact zmod_natCast_ne_one 8999194758858563409123804352480028797519453 _ (by decide) (powM_lt _ _ _ (by decide)) (by decide)
          · rcases (Nat.Prime.dvd_mul hq).mp h3 with h4 | h4
            · have heq : q = 115603 := (Nat.prime_dvd_prime_iff_eq hq (by norm_num : Nat.Prime 115603)).mp h4
              subst heq
              rw [← powM_cast]
              exact zmod_natCast_ne_one 8999194758858563409123804352480028797519453 _ (by decide) (powM_lt _ _ _ (by decide)) (by decide)
            · rcases (Nat.Prime.dvd_mul hq).mp h4 with h5 | h5
              · have heq : q = 1197907 := (Nat.prime_dvd_prime_iff_eq hq prattStep3).mp h5
                subst heq
                rw [← powM_cast]
                exact zmod_natCast_ne_one 8999194758858563409123804352480028797519453 _ (by decide) (powM_lt _ _ _ (by decide)) (by decide)
              · rcases (Nat.Prime.dvd_mul hq).mp h5 with h6 | h6
                · have heq : q = 22160661629 := (Nat.prime_dvd_prime_iff_eq hq prattStep6).mp h6
                  subst heq
                  rw [← powM_cast]
                  exact zmod_natCast_ne_one 8999194758858563409123804352480028797519453 _ (by decide) (powM_lt _ _ _ (by decide)) (by decide)
                · have heq : q = 325086459374267 := (Nat.prime_dvd_prime_iff_eq hq prattStep7).mp h6
                  subst heq
                  rw [← powM_cast]
                  exact zmod_natCast_ne_one 8999194758858563409123804352480028797519453 _ (by decide) (powM_lt _ _ _ (by decide)) (by decide)

theorem prattStep9 : Nat.Prime 28948022309329048855892746252171976963363056481941560715954676764349967630337 := by
  refine lucas_primality 28948022309329048855892746252171976963363056481941560715954676764349967630337 ((5 : Nat) : ZMod 28948022309329048855892746252171976963363056481941560715954676764349967630337) ?_ ?_
  · rw [← powM_cast]
    have h : powM 28948022309329048855892746252171976963363056481941560715954676764349967630337 5 (28948022309329048855892746252171976963363056481941560715954676764349967630337 - 1) = 1 := by decide
    rw [h]
    exact Nat.cast_one
  · intro q hq hdvd
    have hfac : 28948022309329048855892746252171976963363056481941560715954676764349967630337 - 1 = 2 ^ 32 * (3 * (463 * (539204044132271846773 * (8999194758858563409123804352480028797519453)))) := by decide
    rw [hfac] at hdvd
    rcases (Nat.Prime.dvd_mul hq).mp hdvd with h0 | h0
    · have heq : q = 2 := (Nat.prime_dvd_prime_iff_eq hq (by norm_num : Nat.Prime 2)).mp (hq.dvd_of_dvd_pow h0)
      subst heq
      rw [← powM_cast]
      exact zmod_natCast_ne_one 28948022309329048855892746252171976963363056481941560715954676764349967630337 _ (by decide) (powM_lt _ _ _ (by decide)) (by decide)
    · rcases (Nat.Prime.dvd_mul hq).mp h0 with h1 | h1
      · have heq : q = 3 := (Nat.prime_dvd_prime_iff_eq hq (by norm_num : Nat.Prime 3)).mp h1
        subst heq
        rw [← powM_cast]
        exact zmod_natCast_ne_one 28948022309329048855892746252171976963363056481941560715954676764349967630337 _ (by decide) (powM_lt _ _ _ (by decide)) (by decide)
      · rcases (Nat.Prime.dvd_mul hq).mp h1 with h2 | h2
        · have heq : q = 463 := (Nat.prime_dvd_prime_iff_eq hq (by norm_num : Nat.Prime 463)).mp h2
          subst heq
          rw [← powM_cast]
          exact zmod_natCast_ne_one 28948022309329048855892746252171976963363056481941560715954676764349967630337 _ (by decide) (powM_lt _ _ _ (by decide)) (by decide)
        · rcases (Nat.Prime.dvd_mul hq).mp h2 with h3 | h3
          · have heq : q = 539204044132271846773 := (Nat.prime_dvd_prime_iff_eq hq prattStep2).mp h3
            subst heq
            rw [← powM_cast]
            exact zmod_natCast_ne_one 28948022309329048855892746252171976963363056481941560715954676764349967630337 _ (by decide) (powM_lt _ _ _ (by decide)) (by decide)
          · have heq : q = 8999194758858563409123804352480028797519453 := (Nat.prime_dvd_prime_iff_eq hq prattStep8).mp h3
            subst heq
            rw [← powM_cast]
            exact zmod_natCast_ne_one 28948022309329048855892746252171976963363056481941560715954676764349967630337 _ (by decide) (powM_lt _ _ _ (by decide)) (by decide)

/-- The Pallas base-field modulus is prime. -/
theorem pallasP_prime : Nat.Prime pallasP := prattStep9

end ECC

namespace ECC

/-! ## Tonelli-Shanks: soundness of the embedded loop

Soundness needs no number theory: the loop maintains `r^2 = t * nv` in
`ZMod p`, so whatever it returns is a square root of `nv` whenever it stops
(which it does exactly when `t = 1`). -/

theorem cast_eq_one_iff (p r : Nat) (hp : 1 < p) (hr : r < p) :
    ((r : Nat) : ZMod p) = 1 ↔ r = 1 := by
  constructor
  · intro h
    haveI : NeZero p := ⟨by omega⟩
    have hval := ZMod.val_cast_of_lt hr
    rw [h, ZMod.val_one_eq_one_mod, Nat.mod_eq_of_lt hp] at hval
    exact hval.symm
  · intro h
    rw [h, Nat.cast_one]

theorem iterSq_cast (p : Nat) : ∀ k c : Nat,
    ((iterSq p k c : Nat) : ZMod p) = ((c : Nat) : ZMod p) ^ (2 ^ k) := by
  intro k
  induction k with
  | zero => intro c; simp [iterSq]
  | succ j ih =>
    intro c
    have h2 : 2 * 2 ^ j = 2 ^ (j + 1) := by rw [pow_succ]; ring
    show ((iterSq p j (c * c % p) : Nat) : ZMod p) = _
    rw [ih (c * c % p), mulmod_cast, ← pow_two, ← pow_mul, h2]

theorem iterSq_lt (p : Nat) (hp : 0 < p) : ∀ k c, c < p → iterSq p k c < p := by
  intro k
  induction k with
  | zero => intro c hc; exact hc
  | succ j ih =>
    intro c _
    exact ih (c * c % p) (Nat.mod_lt _ hp)

theorem tsLoop_sound (p nv : Nat) (hp : 0 < p) :
    ∀ fuel m c t r res : Nat,
      (((r : Nat) : ZMod p) * ((r : Nat) : ZMod p) =
        ((t : Nat) : ZMod p) * ((nv : Nat) : ZMod p)) → r < p →
      tsLoop p fuel m c t r = some res →
      (((res : Nat) : ZMod p) * ((res : Nat) : ZMod p) = ((nv : Nat) : ZMod p)) ∧
        res < p := by
  intro fuel
  induction fuel with
  | zero => intro m c t r res _ _ h; cases h
  | succ f ih =>
    intro m c t r res hinv hr h
    rw [tsLoop] at h
    by_cases ht : t = 1
    · rw [if_pos ht] at h
      injection h with h
      subst h
      refine ⟨?_, hr⟩
      rw [hinv, ht, Nat.cast_one, one_mul]
    · rw [if_neg ht] at h
      rcases hfind : findIAux p m (t * t % p) 1 with _ | i
      · rw [hfind] at h; cases h
      · rw [hfind] at h
        refine ih i (iterSq p (m - i - 1) c * iterSq p (m - i - 1) c % p)
          (t * (iterSq p (m - i - 1) c * iterSq p (m - i - 1) c % p) % p)
          (r * iterSq p (m - i - 1) c % p) res ?_ (Nat.mod_lt _ hp) h
        rw [mulmod_cast, mulmod_cast, mulmod_cast]
        rw [mul_mul_mul_comm, hinv]
        ring

end ECC

namespace ECC

/-! ## Tonelli-Shanks: completeness of the embedded loop

With `p` prime, the source's inner search always finds the least `i ≥ 1`
with `t^(2^i) = 1` within its fuel, and each outer pass strictly decreases
`m`, so the fuel `s + 1` supplied by `sqrtTS` always suffices once the
Euler gate has passed. -/

theorem findIAux_reaches (p : Nat) (hp1 : 1 < p) (t i₀ : Nat)
    (hroot : ((t : Nat) : ZMod p) ^ (2 ^ i₀) = 1)
    (hmin : ∀ j, 1 ≤ j → j < i₀ → ((t : Nat) : ZMod p) ^ (2 ^ j) ≠ 1) :
    ∀ fuel j tmp : Nat, 1 ≤ j → j ≤ i₀ → tmp < p →
      ((tmp : Nat) : ZMod p) = ((t : Nat) : ZMod p) ^ (2 ^ j) →
      i₀ + 1 - j ≤ fuel →
      findIAux p fuel tmp j = some i₀ := by
  intro fuel
  induction fuel with
  | zero => intro j tmp h1 h2 _ _ hf; omega
  | succ f ih =>
    intro j tmp h1 h2 htmp hcast hf
    rw [findIAux]
    by_cases hone : tmp = 1
    · have hj : j = i₀ := by
        by_contra hne
        have hjlt : j < i₀ := by omega
        apply hmin j h1 hjlt
        rw [← hcast, hone, Nat.cast_one]
      rw [if_pos hone, hj]
    · have hjlt : j < i₀ := by
        by_contra hge
        have hj : j = i₀ := by omega
        apply hone
        refine (cast_eq_one_iff p tmp hp1 htmp).mp ?_
        rw [hcast, hj, hroot]
      rw [if_neg hone]
      refine ih (j + 1) (tmp * tmp % p) (by omega) (by omega)
        (Nat.mod_lt _ (by omega)) ?_ (by omega)
      rw [mulmod_cast, hcast, ← pow_add]
      congr 1
      have h21 : 2 ^ (j + 1) = 2 ^ j * 2 := pow_succ 2 j
      omega

theorem findI_exists (p : Nat) (hp : Nat.Prime p) (t m : Nat) (ht : t < p)
    (htne : t ≠ 1) (hm : 1 ≤ m)
    (hI1 : ((t : Nat) : ZMod p) ^ (2 ^ (m - 1)) = 1) :
    ∃ i, findIAux p m (t * t % p) 1 = some i ∧ 1 ≤ i ∧ i ≤ m - 1 ∧
      ((t : Nat) : ZMod p) ^ (2 ^ i) = 1 ∧
      ((t : Nat) : ZMod p) ^ (2 ^ (i - 1)) = -1 := by
  haveI := Fact.mk hp
  have hp1 : 1 < p := hp.one_lt
  have htcast : ((t : Nat) : ZMod p) ≠ 1 := by
    intro h
    exact htne ((cast_eq_one_iff p t hp1 ht).mp h)
  have hm2 : 2 ≤ m := by
    by_contra h
    have hm1 : m = 1 := by omega
    apply htcast
    have : m - 1 = 0 := by omega
    rw [this] at hI1
    simpa using hI1
  have hex : ∃ j, ((t : Nat) : ZMod p) ^ (2 ^ (j + 1)) = 1 := by
    refine ⟨m - 2, ?_⟩
    have : m - 2 + 1 = m - 1 := by omega
    rw [this]
    exact hI1
  have hroot : ((t : Nat) : ZMod p) ^ (2 ^ (Nat.find hex + 1)) = 1 := Nat.find_spec hex
  have hmin : ∀ j, 1 ≤ j → j < Nat.find hex + 1 →
      ((t : Nat) : ZMod p) ^ (2 ^ j) ≠ 1 := by
    intro j hj1 hj2 hcon
    have hlt : j - 1 < Nat.find hex := by omega
    apply Nat.find_min hex hlt
    have : j - 1 + 1 = j := by omega
    rw [this]
    exact hcon
  have hle : Nat.find hex + 1 ≤ m - 1 := by
    have := Nat.find_min' hex (by
      have : m - 2 + 1 = m - 1 := by omega
      rw [this]
      exact hI1)
    omega
  have hidm : Nat.find hex + 1 - 1 = Nat.find hex := by omega
  have hneg : ((t : Nat) : ZMod p) ^ (2 ^ (Nat.find hex + 1 - 1)) = -1 := by
    rw [hidm]
    have hsq : ((t : Nat) : ZMod p) ^ (2 ^ Nat.find hex) *
        ((t : Nat) : ZMod p) ^ (2 ^ Nat.find hex) = 1 := by
      rw [← pow_add]
      have h21 : 2 ^ Nat.find hex + 2 ^ Nat.find hex = 2 ^ (Nat.find hex + 1) := by
        have := pow_succ 2 (Nat.find hex)
        omega
      rw [h21]
      exact hroot
    rcases mul_self_eq_one_iff.mp hsq with h | h
    · exfalso
      by_cases hi1 : Nat.find hex = 0
      · rw [hi1] at h
        simp at h
        exact htcast h
      · exact hmin (Nat.find hex) (by omega) (by omega) h
    · exact h
  refine ⟨Nat.find hex + 1, ?_, by omega, hle, hroot, hneg⟩
  refine findIAux_reaches p hp1 t (Nat.find hex + 1) hroot hmin m 1 (t * t % p)
    (by omega) (by omega) (Nat.mod_lt _ (by omega)) ?_ (by omega)
  rw [mulmod_cast, pow_one, pow_two]

theorem tsLoop_complete (p : Nat) (hp : Nat.Prime p) :
    ∀ fuel m c t r : Nat, 1 ≤ m → m ≤ fuel → t < p → c < p →
      ((t : Nat) : ZMod p) ^ (2 ^ (m - 1)) = 1 →
      ((c : Nat) : ZMod p) ^ (2 ^ (m - 1)) = -1 →
      ∃ res, tsLoop p fuel m c t r = some res := by
  haveI := Fact.mk hp
  have hp1 : 1 < p := hp.one_lt
  intro fuel
  induction fuel with
  | zero => intro m c t r hm hf _ _ _ _; omega
  | succ f ih =>
    intro m c t r hm hf ht hc hI1 hI2
    rw [tsLoop]
    by_cases ht1 : t = 1
    · rw [if_pos ht1]
      exact ⟨r, rfl⟩
    · rw [if_neg ht1]
      obtain ⟨i, hfind, hi1, hile, hroot, hneg⟩ := findI_exists p hp t m ht ht1 hm hI1
      rw [hfind]
      have hm2 : 2 ≤ m := by omega
      have hbcast : ((iterSq p (m - i - 1) c : Nat) : ZMod p) =
          ((c : Nat) : ZMod p) ^ (2 ^ (m - i - 1)) := iterSq_cast p _ c
      have hblt : iterSq p (m - i - 1) c < p := iterSq_lt p (by omega) _ c hc
      have hbb : ((iterSq p (m - i - 1) c * iterSq p (m - i - 1) c % p : Nat) : ZMod p) =
          ((c : Nat) : ZMod p) ^ (2 ^ (m - i)) := by
        rw [mulmod_cast, hbcast, ← pow_add]
        congr 1
        obtain ⟨k, hk⟩ : ∃ k, m - i = k + 1 := ⟨m - i - 1, by omega⟩
        rw [hk, Nat.add_sub_cancel, pow_succ]
        omega
      have hcexp : (((c : Nat) : ZMod p) ^ (2 ^ (m - i))) ^ (2 ^ (i - 1)) = -1 := by
        rw [← pow_mul, ← pow_add]
        have : m - i + (i - 1) = m - 1 := by omega
        rw [this]
        exact hI2
      obtain ⟨res, hres⟩ := ih i (iterSq p (m - i - 1) c * iterSq p (m - i - 1) c % p)
        (t * (iterSq p (m - i - 1) c * iterSq p (m - i - 1) c % p) % p)
        (r * iterSq p (m - i - 1) c % p)
        hi1 (by omega) (Nat.mod_lt _ (by omega)) (Nat.mod_lt _ (by omega))
        (by
          rw [mulmod_cast, hbb, mul_pow, hneg, ← pow_mul, ← pow_add]
          have hmi : m - i + (i - 1) = m - 1 := by omega
          rw [hmi, hI2]
          ring)
        (by rw [hbb]; exact hcexp)
      exact ⟨res, hres⟩

end ECC

namespace ECC

/-! ## `Element.sqrt` at the Pallas prime -/

theorem sqrtTS_pallas_sound (nv r : Nat) (hs : sqrtTS pallasP nv = some r) :
    (r * r) % pallasP = nv % pallasP ∧ r < pallasP := by
  have hp0 : 0 < pallasP := by decide
  have hstrip : stripTwos (pallasP - 1) = (pallasQ, 32) := by decide
  have hhalf : (pallasQ + 1) / 2 + (pallasQ + 1) / 2 = pallasQ + 1 := by decide
  unfold sqrtTS at hs
  by_cases hgate : powM pallasP nv ((pallasP - 1) / 2) ≠ 1
  · rw [if_pos hgate] at hs; cases hs
  · rw [if_neg hgate] at hs
    dsimp only at hs
    rw [hstrip] at hs
    dsimp only at hs
    have hinv : ((powM pallasP nv ((pallasQ + 1) / 2) : Nat) : ZMod pallasP) *
        ((powM pallasP nv ((pallasQ + 1) / 2) : Nat) : ZMod pallasP) =
        ((powM pallasP nv pallasQ : Nat) : ZMod pallasP) * ((nv : Nat) : ZMod pallasP) := by
      rw [powM_cast, powM_cast, ← pow_add, hhalf, pow_succ]
    have := tsLoop_sound pallasP nv hp0 (32 + 1) 32
      (powM pallasP (findZ pallasP) pallasQ) (powM pallasP nv pallasQ)
      (powM pallasP nv ((pallasQ + 1) / 2)) r hinv
      (powM_lt _ _ _ hp0) hs
    refine ⟨?_, this.2⟩
    have hcast := this.1
    rw [← Nat.cast_mul] at hcast
    exact (ZMod.natCast_eq_natCast_iff' _ _ _).mp hcast

theorem sqrtTS_pallas_some (nv : Nat) (hnv : nv < pallasP) (hnz : nv ≠ 0)
    (hgate : powM pallasP nv ((pallasP - 1) / 2) = 1) :
    ∃ r, sqrtTS pallasP nv = some r ∧ r < pallasP ∧ r ≠ 0 ∧
      (r * r) % pallasP = nv % pallasP := by
  have hP := pallasP_prime
  haveI := Fact.mk hP
  have hp0 : 0 < pallasP := by decide
  have hp1 : 1 < pallasP := by decide
  have hstrip : stripTwos (pallasP - 1) = (pallasQ, 32) := by decide
  have hfz : findZ pallasP = 5 := by decide
  have hzp : powM pallasP 5 ((pallasP - 1) / 2) = pallasP - 1 := by decide
  have hq31 : pallasQ * 2 ^ 31 = (pallasP - 1) / 2 := by decide
  have hI1 : ((powM pallasP nv pallasQ : Nat) : ZMod pallasP) ^ (2 ^ (32 - 1)) = 1 := by
    rw [powM_cast, ← pow_mul]
    rw [show (32 : Nat) - 1 = 31 from rfl, hq31, ← powM_cast, hgate, Nat.cast_one]
  have hI2 : ((powM pallasP 5 pallasQ : Nat) : ZMod pallasP) ^ (2 ^ (32 - 1)) = -1 := by
    rw [powM_cast, ← pow_mul]
    rw [show (32 : Nat) - 1 = 31 from rfl, hq31, ← powM_cast, hzp]
    rw [Nat.cast_sub (by omega), ZMod.natCast_self, Nat.cast_one, zero_sub]
  obtain ⟨res, hres⟩ := tsLoop_complete pallasP hP (32 + 1) 32
    (powM pallasP 5 pallasQ) (powM pallasP nv pallasQ)
    (powM pallasP nv ((pallasQ + 1) / 2))
    (by omega) (by omega) (powM_lt _ _ _ hp0) (powM_lt _ _ _ hp0) hI1 hI2
  have hs : sqrtTS pallasP nv = some res := by
    unfold sqrtTS
    rw [hgate]
    rw [if_neg (by simp)]
    dsimp only
    rw [hstrip, hfz]
    dsimp only
    exact hres
  obtain ⟨hsq, hlt⟩ := sqrtTS_pallas_sound nv res hs
  refine ⟨res, hs, hlt, ?_, hsq⟩
  intro h0
  subst h0
  rw [Nat.zero_mul, Nat.zero_mod, Nat.mod_eq_of_lt hnv] at hsq
  exact hnz hsq.symm

/-- A root modulo the prime forces the Euler gate of `Element.sqrt` to pass. -/
theorem root_to_gate (nv y : Nat) (hnv : nv < pallasP) (hnz : nv ≠ 0)
    (hy : (y * y) % pallasP = nv % pallasP) :
    powM pallasP nv ((pallasP - 1) / 2) = 1 := by
  have hP := pallasP_prime
  haveI := Fact.mk hP
  have hp1 : 1 < pallasP := by decide
  have h2half : 2 * ((pallasP - 1) / 2) = pallasP - 1 := by decide
  haveI : NeZero pallasP := ⟨by omega⟩
  have hycast : ((y : Nat) : ZMod pallasP) * ((y : Nat) : ZMod pallasP) =
      ((nv : Nat) : ZMod pallasP) := by
    have := (ZMod.natCast_eq_natCast_iff' (y * y) nv pallasP).mpr hy
    rw [← Nat.cast_mul]
    exact this
  have hyne : ((y : Nat) : ZMod pallasP) ≠ 0 := by
    intro h
    rw [h, mul_zero] at hycast
    have hval := ZMod.val_cast_of_lt hnv
    rw [← hycast, ZMod.val_zero] at hval
    exact hnz hval.symm
  have hcast : ((powM pallasP nv ((pallasP - 1) / 2) : Nat) : ZMod pallasP) = 1 := by
    rw [powM_cast, ← hycast, ← pow_two, ← pow_mul, h2half]
    exact ZMod.pow_card_sub_one_eq_one hyne
  exact (cast_eq_one_iff pallasP _ hp1 (powM_lt _ _ _ (by omega))).mp hcast

/-- The decoding right-hand side `x^3 + 5` is never divisible by `p`:
`-5` is not a cube modulo `p` (there is no 2-torsion on Pallas). -/
theorem no_rhs_zero (x : Nat) : (x * x * x + curveBK) % pallasP ≠ 0 := by
  have hP := pallasP_prime
  haveI := Fact.mk hP
  have hp1 : 1 < pallasP := by decide
  haveI : NeZero pallasP := ⟨by omega⟩
  have h3e : 3 * ((pallasP - 1) / 3) = pallasP - 1 := by decide
  have hne5 : powM pallasP (pallasP - 5) ((pallasP - 1) / 3) ≠ 1 := by decide
  intro h0
  have hcast : ((x : Nat) : ZMod pallasP) * ((x : Nat) : ZMod pallasP) *
      ((x : Nat) : ZMod pallasP) + 5 = 0 := by
    have := (ZMod.natCast_eq_natCast_iff' (x * x * x + curveBK) 0 pallasP).mpr
      (by rw [h0, Nat.zero_mod])
    rw [Nat.cast_add, Nat.cast_mul, Nat.cast_mul, Nat.cast_zero] at this
    have h5 : ((curveBK : Nat) : ZMod pallasP) = 5 := by
      unfold curveBK
      norm_num
    rw [h5] at this
    exact this
  have hx5 : ((x : Nat) : ZMod pallasP) * ((x : Nat) : ZMod pallasP) *
      ((x : Nat) : ZMod pallasP) = -5 := by
    linear_combination hcast
  have hxne : ((x : Nat) : ZMod pallasP) ≠ 0 := by
    intro h
    rw [h] at hx5
    have h5 : ((5 : Nat) : ZMod pallasP) = 0 := by
      have : -(5 : ZMod pallasP) = 0 := by
        rw [← hx5]; ring
      have h5' : (5 : ZMod pallasP) = 0 := by
        have := congrArg Neg.neg this
        simpa using this
      simpa using h5'
    have hval := ZMod.val_cast_of_lt (show (5 : Nat) < pallasP by decide)
    rw [h5, ZMod.val_zero] at hval
    cases hval
  have hferm : ((x : Nat) : ZMod pallasP) ^ (pallasP - 1) = 1 :=
    ZMod.pow_card_sub_one_eq_one hxne
  have hm5cast : ((pallasP - 5 : Nat) : ZMod pallasP) = -5 := by
    rw [Nat.cast_sub (by decide : (5 : Nat) ≤ pallasP), ZMod.natCast_self, zero_sub]
    norm_num
  have hcontr : ((powM pallasP (pallasP - 5) ((pallasP - 1) / 3) : Nat) : ZMod pallasP) = 1 := by
    rw [powM_cast, hm5cast, ← hx5]
    have hcube : ((x : Nat) : ZMod pallasP) * ((x : Nat) : ZMod pallasP) *
        ((x : Nat) : ZMod pallasP) = ((x : Nat) : ZMod pallasP) ^ 3 := by ring
    rw [hcube, ← pow_mul, h3e]
    exact hferm
  exact hne5 ((cast_eq_one_iff pallasP _ hp1 (powM_lt _ _ _ (by omega))).mp hcontr)

end ECC

namespace ECC

/-! ## Claim C1: the decode error characterization -/

theorem all_zero_iff (d : List Nat) : d.all (· == 0) = true ↔ ∀ b ∈ d, b = 0 := by
  rw [List.all_eq_true]
  constructor
  · intro h b hb
    exact beq_iff_eq.mp (h b hb)
  · intro h b hb
    exact beq_iff_eq.mpr (h b hb)

end ECC

namespace ECC

/-- Path lemma: with the length, zero, header and range checks passed,
`decodeFull` reduces to the square-root step. -/
theorem decodeFull_good (e : PElement) (d : List Nat) (h1 : d.length = 33)
    (h2 : ¬ d.all (· == 0) = true) (h3 : ¬ (d.headD 0 ≠ 2 ∧ d.headD 0 ≠ 3))
    (h4 : ¬ pallasP ≤ bytesToNat (d.drop 1)) :
    decodeFull e d =
      match sqrtTS pallasP ((bytesToNat (d.drop 1) * bytesToNat (d.drop 1) *
          bytesToNat (d.drop 1) + curveBK) % pallasP) with
      | none => (e, false)
      | some y =>
        (⟨bytesToNat (d.drop 1),
          if ((d.headD 0 == 2) != (y % 2 == 0)) then pallasP - y else y, 1⟩, true) := by
  unfold decodeFull
  rw [if_neg (by simp [h1] : ¬ d.length ≠ 33), if_neg h2, if_neg h3]
  dsimp only
  rw [if_neg h4]

/-- Squares are parity-stable modulo `p`: `(p - y)^2 ≡ y^2`. -/
theorem sq_negate_mod (y : Nat) (hy : y ≤ pallasP) :
    ((pallasP - y) * (pallasP - y)) % pallasP = (y * y) % pallasP := by
  refine (ZMod.natCast_eq_natCast_iff' _ _ _).mp ?_
  rw [Nat.cast_mul, Nat.cast_mul, Nat.cast_sub hy, ZMod.natCast_self, zero_sub]
  ring

/-- C1.  For every receiver and byte string, Pallas `Element.Decode(d)`
fails with `InvalidEncoding` exactly when `d` is not 33 bytes long, or `d`
is non-zero with a header byte other than `0x02`/`0x03`, or the decoded
coordinate is not strictly below the field modulus, or `x^3 + 5` has no
square root modulo `p`; an all-zero 33-byte input decodes to the identity;
and every other accepted input sets the receiver to the affine point
`(x, y, Z = 1)` with `y^2 ≡ x^3 + 5` whose `y`-parity matches the header. -/
theorem decode_error_characterization (e : PElement) (d : List Nat) :
    ((decodeFull e d).2 = false ↔
      d.length ≠ 33 ∨
        ((¬ ∀ b ∈ d, b = 0) ∧
          ((d.headD 0 ≠ 2 ∧ d.headD 0 ≠ 3) ∨
            pallasP ≤ bytesToNat (d.drop 1) ∨
            ¬ ∃ y, (y * y) % pallasP =
              (bytesToNat (d.drop 1) ^ 3 + 5) % pallasP))) ∧
    ((d.length = 33 ∧ ∀ b ∈ d, b = 0) → decodeFull e d = (identityE, true)) ∧
    ((decodeFull e d).2 = true → (¬ ∀ b ∈ d, b = 0) →
      ∃ y, (decodeFull e d).1 = ⟨bytesToNat (d.drop 1), y, 1⟩ ∧ y < pallasP ∧
        (y * y) % pallasP = (bytesToNat (d.drop 1) ^ 3 + 5) % pallasP ∧
        (y % 2 = 0 ↔ d.headD 0 = 2)) := by
  have hx3 : bytesToNat (d.drop 1) ^ 3 + 5 =
      bytesToNat (d.drop 1) * bytesToNat (d.drop 1) * bytesToNat (d.drop 1) + curveBK := by
    unfold curveBK
    ring
  by_cases hlen : d.length = 33
  · by_cases hzero : d.all (· == 0) = true
    · have heq : decodeFull e d = (identityE, true) := by
        unfold decodeFull
        rw [if_neg (by simp [hlen] : ¬ d.length ≠ 33), if_pos hzero]
      refine ⟨?_, fun _ => heq, ?_⟩
      · rw [heq]
        refine iff_of_false (by simp) ?_
        rintro (h | ⟨hna, _⟩)
        · exact h hlen
        · exact hna ((all_zero_iff d).mp hzero)
      · intro _ hna
        exact absurd ((all_zero_iff d).mp hzero) hna
    · have hna : ¬ ∀ b ∈ d, b = 0 := fun h => hzero ((all_zero_iff d).mpr h)
      by_cases hhead : d.headD 0 ≠ 2 ∧ d.headD 0 ≠ 3
      · have heq : decodeFull e d = (e, false) := by
          unfold decodeFull
          rw [if_neg (by simp [hlen] : ¬ d.length ≠ 33), if_neg hzero, if_pos hhead]
        refine ⟨?_, ?_, ?_⟩
        · rw [heq]
          exact iff_of_true rfl (Or.inr ⟨hna, Or.inl hhead⟩)
        · rintro ⟨_, hz⟩
          exact absurd hz hna
        · intro hsucc
          rw [heq] at hsucc
          cases hsucc
      · by_cases hrange : pallasP ≤ bytesToNat (d.drop 1)
        · have heq : decodeFull e d = (e, false) := by
            unfold decodeFull
            rw [if_neg (by simp [hlen] : ¬ d.length ≠ 33), if_neg hzero, if_neg hhead]
            dsimp only
            rw [if_pos hrange]
          refine ⟨?_, ?_, ?_⟩
          · rw [heq]
            exact iff_of_true rfl (Or.inr ⟨hna, Or.inr (Or.inl hrange)⟩)
          · rintro ⟨_, hz⟩
            exact absurd hz hna
          · intro hsucc
            rw [heq] at hsucc
            cases hsucc
        · have hgood := decodeFull_good e d hlen hzero hhead hrange
          have hnvlt : (bytesToNat (d.drop 1) * bytesToNat (d.drop 1) *
              bytesToNat (d.drop 1) + curveBK) % pallasP < pallasP :=
            Nat.mod_lt _ (by decide)
          have hnz := no_rhs_zero (bytesToNat (d.drop 1))
          have hnvmod : (bytesToNat (d.drop 1) * bytesToNat (d.drop 1) *
              bytesToNat (d.drop 1) + curveBK) % pallasP % pallasP =
              (bytesToNat (d.drop 1) * bytesToNat (d.drop 1) *
              bytesToNat (d.drop 1) + curveBK) % pallasP :=
            Nat.mod_mod_of_dvd _ dvd_rfl
          rcases hs : sqrtTS pallasP ((bytesToNat (d.drop 1) * bytesToNat (d.drop 1) *
              bytesToNat (d.drop 1) + curveBK) % pallasP) with _ | y
          · rw [hs] at hgood
            dsimp only at hgood
            refine ⟨?_, ?_, ?_⟩
            · rw [hgood]
              refine iff_of_true rfl (Or.inr ⟨hna, Or.inr (Or.inr ?_)⟩)
              rintro ⟨y, hy⟩
              rw [hx3] at hy
              have hy' : (y * y) % pallasP = (bytesToNat (d.drop 1) * bytesToNat (d.drop 1) *
                  bytesToNat (d.drop 1) + curveBK) % pallasP % pallasP := by
                rw [hnvmod]
                exact hy
              have hgate := root_to_gate _ y hnvlt hnz hy'
              obtain ⟨r, hr, -⟩ := sqrtTS_pallas_some _ hnvlt hnz hgate
              rw [hs] at hr
              cases hr
            · rintro ⟨_, hz⟩
              exact absurd hz hna
            · intro hsucc
              rw [hgood] at hsucc
              cases hsucc
          · rw [hs] at hgood
            dsimp only at hgood
            obtain ⟨hsq, hylt⟩ := sqrtTS_pallas_sound _ y hs
            have hyne : y ≠ 0 := by
              intro h0
              subst h0
              rw [Nat.zero_mul, Nat.zero_mod, hnvmod] at hsq
              exact hnz hsq.symm
            have hexists : ∃ y₀, (y₀ * y₀) % pallasP =
                (bytesToNat (d.drop 1) ^ 3 + 5) % pallasP := by
              refine ⟨y, ?_⟩
              rw [hx3, hsq, hnvmod]
            refine ⟨?_, ?_, ?_⟩
            · rw [hgood]
              refine iff_of_false (by simp) ?_
              rintro (h | ⟨_, h | h | h⟩)
              · exact h hlen
              · exact hhead h
              · exact hrange h
              · exact h hexists
            · rintro ⟨_, hz⟩
              exact absurd hz hna
            · intro _ _
              rw [hgood]
              have hhead23 : d.headD 0 = 2 ∨ d.headD 0 = 3 := by
                rcases eq_or_ne (d.headD 0) 2 with h | h
                · exact Or.inl h
                · rcases eq_or_ne (d.headD 0) 3 with h' | h'
                  · exact Or.inr h'
                  · exact absurd ⟨h, h'⟩ hhead
              have hpodd : pallasP % 2 = 1 := by decide
              have hsqy : ∀ y', y' = pallasP - y ∨ y' = y →
                  (y' * y') % pallasP = (bytesToNat (d.drop 1) ^ 3 + 5) % pallasP := by
                rintro y' (rfl | rfl)
                · rw [sq_negate_mod y (le_of_lt hylt), hx3, hsq, hnvmod]
                · rw [hx3, hsq, hnvmod]
              by_cases hpar : (d.headD 0 == 2) = (y % 2 == 0)
              · have hcond : ((d.headD 0 == 2) != (y % 2 == 0)) = false := by
                  rw [hpar, bne_self_eq_false]
                refine ⟨y, by rw [hcond]; rfl, hylt, hsqy y (Or.inr rfl), ?_⟩
                rcases hhead23 with h2 | h3
                · have hy0 : y % 2 = 0 := by
                    rw [h2] at hpar
                    simpa using hpar.symm
                  exact iff_of_true hy0 h2
                · have hy1 : ¬ y % 2 = 0 := by
                    intro h
                    rw [h3, h] at hpar
                    simp at hpar
                  exact iff_of_false hy1 (by rw [h3]; omega)
              · have hcond : ((d.headD 0 == 2) != (y % 2 == 0)) = true := by
                  cases hd2 : (d.headD 0 == 2) <;> cases hy0 : (y % 2 == 0)
                  · exact absurd (hd2.trans hy0.symm) hpar
                  · rfl
                  · rfl
                  · exact absurd (hd2.trans hy0.symm) hpar
                have hy2 : (pallasP - y) % 2 = 0 ↔ ¬ y % 2 = 0 := by
                  have hylep : y ≤ pallasP := le_of_lt hylt
                  omega
                refine ⟨pallasP - y, by rw [hcond]; rfl, by omega, hsqy _ (Or.inl rfl), ?_⟩
                rcases hhead23 with h2 | h3
                · have hyodd : ¬ y % 2 = 0 := by
                    intro h
                    apply hpar
                    rw [h2, h]
                    rfl
                  exact iff_of_true (hy2.mpr hyodd) h2
                · have hyeven : y % 2 = 0 := by
                    rcases Nat.mod_two_eq_zero_or_one y with h | h
                    · exact h
                    · exfalso
                      apply hpar
                      rw [h3, h]
                      rfl
                  refine iff_of_false ?_ (by rw [h3]; omega)
                  intro h
                  exact (hy2.mp h) hyeven
  · have heq : decodeFull e d = (e, false) := by
      unfold decodeFull
      rw [if_pos hlen]
    refine ⟨?_, ?_, ?_⟩
    · rw [heq]
      exact iff_of_true rfl (Or.inl hlen)
    · rintro ⟨h33, _⟩
      exact absurd h33 hlen
    · intro hsucc
      rw [heq] at hsucc
      cases hsucc

end ECC

namespace ECC

/-! ## Claim C2: encode/decode round-trip -/

theorem modInverse_one_pallas : modInverse 1 pallasP = 1 := by
  decide

theorem toAffine_z1 (x y : Nat) (hx : x < pallasP) (hy : y < pallasP) :
    toAffine ⟨x, y, 1⟩ = (x, y) := by
  unfold toAffine
  rw [if_neg (fun h => one_ne_zero h : ¬ (PElement.mk x y 1).z = 0)]
  dsimp only
  rw [modInverse_one_pallas]
  rw [show (1 * 1 % pallasP : Nat) = 1 by decide]
  rw [show (1 * 1 % pallasP : Nat) = 1 by decide]
  rw [Nat.mul_one, Nat.mul_one, Nat.mod_eq_of_lt hx, Nat.mod_eq_of_lt hy]

theorem encodeE_z1 (x y : Nat) (hx : x < pallasP) (hy : y < pallasP) :
    encodeE ⟨x, y, 1⟩ = (if y % 2 = 0 then 2 else 3) :: pad32 x := by
  unfold encodeE
  rw [if_neg (fun h => one_ne_zero h : ¬ (PElement.mk x y 1).z = 0)]
  rw [toAffine_z1 x y hx hy]

theorem toAffine_lt (e : PElement) (hz : e.z ≠ 0) :
    (toAffine e).1 < pallasP ∧ (toAffine e).2 < pallasP := by
  unfold toAffine
  rw [if_neg hz]
  exact ⟨Nat.mod_lt _ (by decide), Nat.mod_lt _ (by decide)⟩

theorem decode_all_zero (e₀ : PElement) :
    decodeFull e₀ (List.replicate 33 0) = (identityE, true) := by
  unfold decodeFull
  rw [if_neg (by simp : ¬ (List.replicate 33 (0 : Nat)).length ≠ 33),
    if_pos (by simp [List.all_eq_true] : (List.replicate 33 (0 : Nat)).all (· == 0) = true)]

theorem header_beq_parity (y : Nat) :
    (((if y % 2 = 0 then 2 else 3) : Nat) == 2) = (y % 2 == 0) := by
  rcases Nat.mod_two_eq_zero_or_one y with h | h <;> rw [h] <;> simp

end ECC

namespace ECC

theorem cube_bridge (x : Nat) : x ^ 3 + 5 = x * x * x + curveBK := by
  unfold curveBK
  ring

/-- Over the prime field, a square root is determined up to negation. -/
theorem root_cases (yy r : Nat) (hy : yy < pallasP) (hyne : yy ≠ 0) (hr : r < pallasP)
    (hsq : (r * r) % pallasP = (yy * yy) % pallasP) : r = yy ∨ r = pallasP - yy := by
  have hP := pallasP_prime
  haveI := Fact.mk hP
  haveI : NeZero pallasP := ⟨by decide⟩
  have hcast : ((r : Nat) : ZMod pallasP) * ((r : Nat) : ZMod pallasP) =
      ((yy : Nat) : ZMod pallasP) * ((yy : Nat) : ZMod pallasP) := by
    have := (ZMod.natCast_eq_natCast_iff' (r * r) (yy * yy) pallasP).mpr hsq
    rw [Nat.cast_mul, Nat.cast_mul] at this
    exact this
  rcases mul_self_eq_mul_self_iff.mp hcast with h | h
  · left
    have := congrArg ZMod.val h
    rw [ZMod.val_cast_of_lt hr, ZMod.val_cast_of_lt hy] at this
    exact this
  · right
    have hcast2 : ((r : Nat) : ZMod pallasP) = ((pallasP - yy : Nat) : ZMod pallasP) := by
      rw [h, Nat.cast_sub (le_of_lt hy), ZMod.natCast_self, zero_sub]
    have := congrArg ZMod.val hcast2
    rw [ZMod.val_cast_of_lt hr, ZMod.val_cast_of_lt (by omega)] at this
    exact this

/-- C2.  Decode is a left inverse of Encode up to `Equal` (for the identity
and for every reduced element whose affine coordinates satisfy the curve
equation), and Encode is a left inverse of Decode byte-for-byte on every
successfully decoded string. -/
theorem encode_decode_roundtrip :
    (∀ e₀ e : PElement, e.x < pallasP → e.y < pallasP → e.z < pallasP →
      (e.z ≠ 0 → ((toAffine e).2 * (toAffine e).2) % pallasP =
        ((toAffine e).1 ^ 3 + 5) % pallasP) →
      (decodeFull e₀ (encodeE e)).2 = true ∧
        equalE (decodeFull e₀ (encodeE e)).1 e = 1) ∧
    (∀ (e₀ : PElement) (d : List Nat), (decodeFull e₀ d).2 = true →
      (∀ b ∈ d, b < 256) → encodeE (decodeFull e₀ d).1 = d) := by
  constructor
  · intro e₀ e hx hy hz hcurve
    by_cases hzz : e.z = 0
    · have henc : encodeE e = List.replicate 33 0 := by
        unfold encodeE
        rw [if_pos hzz]
      rw [henc, decode_all_zero e₀]
      refine ⟨rfl, ?_⟩
      show (if encodeE identityE = encodeE e then 1 else 0) = 1
      rw [henc]
      decide
    · obtain ⟨hxa, hya⟩ := toAffine_lt e hzz
      have hcurve' := hcurve hzz
      have hyane : (toAffine e).2 ≠ 0 := by
        intro h0
        rw [h0, Nat.zero_mul, Nat.zero_mod] at hcurve'
        rw [cube_bridge] at hcurve'
        exact no_rhs_zero (toAffine e).1 hcurve'.symm
      have hencE : encodeE e =
          (if (toAffine e).2 % 2 = 0 then 2 else 3) :: pad32 (toAffine e).1 := by
        unfold encodeE
        rw [if_neg hzz]
      have hxlt256 : (toAffine e).1 < 256 ^ 32 := lt_trans hxa (by decide)
      have hpadlen : (pad32 (toAffine e).1).length = 32 := pad32_len _ hxlt256
      have hdrop : ((if (toAffine e).2 % 2 = 0 then 2 else 3) ::
          pad32 (toAffine e).1).drop 1 = pad32 (toAffine e).1 := rfl
      have hheadD : ((if (toAffine e).2 % 2 = 0 then 2 else 3) ::
          pad32 (toAffine e).1).headD 0 = (if (toAffine e).2 % 2 = 0 then 2 else 3) := rfl
      have hgood := decodeFull_good e₀
        ((if (toAffine e).2 % 2 = 0 then 2 else 3) :: pad32 (toAffine e).1)
        (by simp [hpadlen])
        (by
          rcases Nat.mod_two_eq_zero_or_one (toAffine e).2 with h | h <;>
            simp [h, List.all_cons])
        (by
          rcases Nat.mod_two_eq_zero_or_one (toAffine e).2 with h | h <;>
            simp [h])
        (by
          rw [hdrop, pad32_val]
          omega)
      rw [hdrop, pad32_val, hheadD] at hgood
      have hnvlt : ((toAffine e).1 * (toAffine e).1 * (toAffine e).1 + curveBK) % pallasP
          < pallasP := Nat.mod_lt _ (by decide)
      have hnz := no_rhs_zero (toAffine e).1
      have hnvmod : ((toAffine e).1 * (toAffine e).1 * (toAffine e).1 + curveBK) % pallasP
          % pallasP = ((toAffine e).1 * (toAffine e).1 * (toAffine e).1 + curveBK)
          % pallasP := Nat.mod_mod_of_dvd _ dvd_rfl
      have hgate := root_to_gate _ (toAffine e).2 hnvlt hnz
        (by rw [hnvmod, ← cube_bridge]; exact hcurve')
      obtain ⟨r, hr, hrlt, hrne, hrsq⟩ := sqrtTS_pallas_some _ hnvlt hnz hgate
      rw [hr] at hgood
      dsimp only at hgood
      have hrootsq : (r * r) % pallasP = ((toAffine e).2 * (toAffine e).2) % pallasP := by
        rw [hrsq, hnvmod, ← cube_bridge]
        exact hcurve'.symm
      have hbeq := header_beq_parity (toAffine e).2
      have hyfinal : (if (((if (toAffine e).2 % 2 = 0 then 2 else 3) : Nat) == 2)
          != (r % 2 == 0) then pallasP - r else r) = (toAffine e).2 := by
        rw [hbeq]
        have hpodd : pallasP % 2 = 1 := by decide
        rcases root_cases (toAffine e).2 r hya hyane hrlt hrootsq with hcase | hcase
        · subst hcase
          rw [bne_self_eq_false]
          rfl
        · subst hcase
          have hbne : (((toAffine e).2 % 2 == 0) != ((pallasP - (toAffine e).2) % 2 == 0))
              = true := by
            rcases Nat.mod_two_eq_zero_or_one (toAffine e).2 with h | h
            · have h2 : (pallasP - (toAffine e).2) % 2 = 1 := by omega
              rw [h, h2]
              rfl
            · have h2 : (pallasP - (toAffine e).2) % 2 = 0 := by omega
              rw [h, h2]
              rfl
          rw [hbne]
          show pallasP - (pallasP - (toAffine e).2) = (toAffine e).2
          omega
      rw [hencE, hgood]
      refine ⟨rfl, ?_⟩
      show (if encodeE ⟨(toAffine e).1, _, 1⟩ = encodeE e then 1 else 0) = 1
      rw [hyfinal, encodeE_z1 _ _ hxa hya, hencE, if_pos rfl]
  · intro e₀ d hsucc hbytes
    have hchar := decode_error_characterization e₀ d
    have hnotfail : ∀ P, ((decodeFull e₀ d).2 = false ↔ P) → ¬ P := by
      intro P hiff hP
      have := hiff.mpr hP
      rw [hsucc] at this
      exact Bool.noConfusion this
    have hlen : d.length = 33 := by
      by_contra h
      exact hnotfail _ hchar.1 (Or.inl h)
    by_cases hzero : ∀ b ∈ d, b = 0
    · have hrep : d = List.replicate 33 0 := by
        rw [List.eq_replicate_iff]
        exact ⟨hlen, hzero⟩
      have hdec : decodeFull e₀ d = (identityE, true) := by
        rw [hrep]
        exact decode_all_zero e₀
      rw [hdec, hrep]
      rfl
    · obtain ⟨y, hres, hylt, hysq, hypar⟩ := hchar.2.2 hsucc hzero
      have hheadok : ¬ (d.headD 0 ≠ 2 ∧ d.headD 0 ≠ 3) := fun h =>
        hnotfail _ hchar.1 (Or.inr ⟨hzero, Or.inl h⟩)
      have hrange : ¬ pallasP ≤ bytesToNat (d.drop 1) := fun h =>
        hnotfail _ hchar.1 (Or.inr ⟨hzero, Or.inr (Or.inl h)⟩)
      obtain ⟨h0, rest, rfl⟩ : ∃ h0 rest, d = h0 :: rest := by
        cases d with
        | nil => simp at hlen
        | cons a l => exact ⟨a, l, rfl⟩
      have hrestlen : rest.length = 32 := by simpa using hlen
      have hdrop : (h0 :: rest).drop 1 = rest := rfl
      have hheadD : (h0 :: rest).headD 0 = h0 := rfl
      rw [hdrop] at hres hrange
      rw [hheadD] at hypar hheadok
      rw [hres, encodeE_z1 _ _ (by omega) hylt]
      have hyne : y ≠ 0 := by
        intro h0y
        rw [h0y, Nat.zero_mul, Nat.zero_mod] at hysq
        rw [cube_bridge] at hysq
        exact no_rhs_zero (bytesToNat rest) hysq.symm
      congr 1
      · rcases eq_or_ne h0 2 with h2 | h2
        · rw [if_pos (hypar.mpr h2), h2]
        · have h3 : h0 = 3 := by
            by_contra h3
            exact hheadok ⟨h2, h3⟩
          have hodd : ¬ y % 2 = 0 := fun he => h2 (hypar.mp he)
          rw [if_neg hodd, h3]
      · exact pad32_of_bytes rest (fun b hb => hbytes b (by simp [hb])) hrestlen

end ECC

namespace ECC

/-! ## Claims C1/C2 witnesses and C3 identity laws -/

/-- C1 witness: the successful-decode clause applied to the encoding of the
generator. -/
theorem decode_error_characterization_witness :
    (decodeFull identityE (encodeE baseE)).2 = true ∧
    (¬ ∀ b ∈ encodeE baseE, b = 0) ∧
    ∃ y, (decodeFull identityE (encodeE baseE)).1 =
        ⟨bytesToNat ((encodeE baseE).drop 1), y, 1⟩ ∧ y < pallasP ∧
      (y * y) % pallasP = (bytesToNat ((encodeE baseE).drop 1) ^ 3 + 5) % pallasP ∧
      (y % 2 = 0 ↔ (encodeE baseE).headD 0 = 2) :=
  ⟨by decide, by decide,
    (decode_error_characterization identityE (encodeE baseE)).2.2 (by decide) (by decide)⟩

/-- C2 witness: both round-trip directions at the generator. -/
theorem encode_decode_roundtrip_witness :
    (baseE.x < pallasP ∧ baseE.y < pallasP ∧ baseE.z < pallasP) ∧
    ((decodeFull identityE (encodeE baseE)).2 = true ∧
      equalE (decodeFull identityE (encodeE baseE)).1 baseE = 1) ∧
    encodeE (decodeFull identityE (encodeE baseE)).1 = encodeE baseE := by
  have h1 := encode_decode_roundtrip.1 identityE baseE (by decide) (by decide) (by decide)
    (fun _ => by decide)
  refine ⟨⟨by decide, by decide, by decide⟩, h1, ?_⟩
  exact encode_decode_roundtrip.2 identityE (encodeE baseE) h1.1 (by decide)

theorem modSub_self (p a : Nat) (hp : 1 < p) : modSub p a a = 0 := by
  have hcast := modSub_cast p a a (by omega)
  rw [sub_self] at hcast
  haveI : NeZero p := ⟨by omega⟩
  have hval := congrArg ZMod.val hcast
  rw [ZMod.val_cast_of_lt (modSub_lt p a a (by omega)), ZMod.val_zero] at hval
  exact hval

/-- C3.  `e.Add(Identity)` equals `e`; `e.Add(e.Negate())` equals the
identity; the identity's `IsIdentity()` is true; `Double` of the identity is
the identity.  Equality of elements is the source's `Equal` (comparison of
compressed encodings). -/
theorem identity_laws :
    (∀ e : PElement, equalE (addE e identityE) e = 1) ∧
    (∀ e : PElement, e.x < pallasP → e.y < pallasP → e.z < pallasP →
      equalE (addE e (negateE e)) identityE = 1) ∧
    isIdentityE identityE = true ∧
    doubleE identityE = identityE := by
  refine ⟨?_, ?_, rfl, rfl⟩
  · intro e
    by_cases hz : e.z = 0
    · have h1 : addE e identityE = identityE := by
        unfold addE
        rw [if_pos hz]
      have h2 : encodeE e = List.replicate 33 0 := by
        unfold encodeE
        rw [if_pos hz]
      rw [h1]
      show (if encodeE identityE = encodeE e then 1 else 0) = 1
      rw [h2]
      decide
    · have h1 : addE e identityE = e := by
        unfold addE
        rw [if_neg hz]
        rfl
      rw [h1]
      show (if encodeE e = encodeE e then 1 else 0) = 1
      rw [if_pos rfl]
  · intro e hx hy hz
    by_cases hzz : e.z = 0
    · have hneg : negateE e = e := by
        unfold negateE
        rw [if_pos hzz]
      have h1 : addE e e = e := by
        unfold addE
        rw [if_pos hzz]
      rw [hneg, h1]
      show (if encodeE e = encodeE identityE then 1 else 0) = 1
      have h2 : encodeE e = List.replicate 33 0 := by
        unfold encodeE
        rw [if_pos hzz]
      rw [h2]
      decide
    · have hneg : negateE e = ⟨e.x, modSub pallasP 0 e.y, e.z⟩ := by
        unfold negateE
        rw [if_neg hzz]
      rw [hneg]
      have hp1 : (1 : Nat) < pallasP := by decide
      by_cases hy0 : e.y = 0
      · have hs1 : e.y * e.z % pallasP * (e.z * e.z % pallasP) % pallasP = 0 := by
          rw [hy0]
          simp
        have hs2 : modSub pallasP 0 e.y * e.z % pallasP * (e.z * e.z % pallasP)
            % pallasP = 0 := by
          rw [hy0, modSub_self pallasP 0 hp1]
          simp
        have hadd : addE e ⟨e.x, modSub pallasP 0 e.y, e.z⟩ = doubleE e := by
          unfold addE
          rw [if_neg hzz]
          dsimp only
          rw [if_neg hzz, modSub_self pallasP (e.x * (e.z * e.z % pallasP) % pallasP) hp1,
            if_pos rfl, hs1, hs2, modSub_self pallasP 0 hp1, if_pos rfl]
        have hdz : (doubleE e).z = 0 := by
          unfold doubleE
          rw [if_neg hzz]
          dsimp only
          rw [hy0]
          simp
        rw [hadd]
        show (if encodeE (doubleE e) = encodeE identityE then 1 else 0) = 1
        have henc : encodeE (doubleE e) = List.replicate 33 0 := by
          unfold encodeE
          rw [if_pos hdz]
        rw [henc]
        decide
      · have hP := pallasP_prime
        haveI := Fact.mk hP
        haveI : NeZero pallasP := ⟨by decide⟩
        have hsne : modSub pallasP
            (e.y * e.z % pallasP * (e.z * e.z % pallasP) % pallasP)
            (modSub pallasP 0 e.y * e.z % pallasP * (e.z * e.z % pallasP) % pallasP)
            ≠ 0 := by
          intro h0
          have hcast := congrArg (fun n : Nat => ((n : Nat) : ZMod pallasP)) h0
          dsimp only at hcast
          have hms : ∀ a b : Nat, ((modSub pallasP a b : Nat) : ZMod pallasP) =
              ((a : Nat) : ZMod pallasP) - ((b : Nat) : ZMod pallasP) := fun a b =>
            modSub_cast pallasP a b (by omega)
          simp only [hms, mod_cast_self, Nat.cast_mul, Nat.cast_zero] at hcast
          have hprod : (2 : ZMod pallasP) * ((e.y : Nat) : ZMod pallasP) *
              (((e.z : Nat) : ZMod pallasP) * (((e.z : Nat) : ZMod pallasP) *
                ((e.z : Nat) : ZMod pallasP))) = 0 := by
            linear_combination hcast
          have hyne : ((e.y : Nat) : ZMod pallasP) ≠ 0 := by
            intro h
            have := congrArg ZMod.val h
            rw [ZMod.val_cast_of_lt hy, ZMod.val_zero] at this
            exact hy0 this
          have hzne : ((e.z : Nat) : ZMod pallasP) ≠ 0 := by
            intro h
            have := congrArg ZMod.val h
            rw [ZMod.val_cast_of_lt hz, ZMod.val_zero] at this
            exact hzz this
          have h2ne : (2 : ZMod pallasP) ≠ 0 := by
            intro h
            have h2 : ((2 : Nat) : ZMod pallasP) = 0 := by
              rw [Nat.cast_ofNat]
              exact h
            have := congrArg ZMod.val h2
            rw [ZMod.val_cast_of_lt (by decide : (2 : Nat) < pallasP),
              ZMod.val_zero] at this
            cases this
          exact (mul_ne_zero (mul_ne_zero h2ne hyne)
            (mul_ne_zero hzne (mul_ne_zero hzne hzne))) hprod
        have hadd : addE e ⟨e.x, modSub pallasP 0 e.y, e.z⟩ = identityE := by
          unfold addE
          rw [if_neg hzz]
          dsimp only
          rw [if_neg hzz, modSub_self pallasP (e.x * (e.z * e.z % pallasP) % pallasP) hp1,
            if_pos rfl, if_neg hsne]
        rw [hadd]
        show (if encodeE identityE = encodeE identityE then 1 else 0) = 1
        decide

/-- C3 witness: the hypothesis-bearing inverse law applied to the generator. -/
theorem identity_laws_witness :
    (baseE.x < pallasP ∧ baseE.y < pallasP ∧ baseE.z < pallasP) ∧
    equalE (addE baseE (negateE baseE)) identityE = 1 :=
  ⟨⟨by decide, by decide, by decide⟩,
    identity_laws.2.1 baseE (by decide) (by decide) (by decide)⟩

end ECC
